import Mathlib

set_option maxRecDepth 40000

/-!
# Verification of the codex-wrapper core (Go) against its specification

Shallow embedding of the functions of `codex-wrapper/main.go` and
`codex-wrapper/logger.go` that the specification claims speak about:

* `resolveTimeout` (env-var timeout resolution),
* `shouldUseStdin` (stdin dispatch heuristic),
* `tailBuffer.Write` (rolling stderr tail),
* `Logger.log` (bounded async log queue),
* the deferred cleanup of `run` (log-file lifecycle),
* `normalizeText` / `parseJSONStreamWithLog` (event-stream extraction),
* `shouldSkipTask` / `executeConcurrent` (layered concurrent executor),
* `topologicalSort` (Kahn layering).

Go maps over `string` keys are embedded as association lists with
overwrite-on-set (`SMap`); Go machine integers are embedded as `Int`
(no operation here approaches 64-bit overflow, and `strconv.Atoi`
range-checking is modelled explicitly); Go byte slices as `List UInt8`;
fallible Go functions return `Except`/`Option`.
-/

namespace CodexWrapper

/-! ## Association-list maps (embedding of Go `map[string]V`)

`set` overwrites an existing binding in place (Go map assignment);
`getD` returns the Go zero value when the key is absent (Go map read).
-/

def SMap (α : Type) : Type := List (String × α)

namespace SMap

def empty {α : Type} : SMap α := []

def get? {α : Type} : SMap α → String → Option α
  | [], _ => none
  | (k, v) :: rest, key => if k = key then some v else get? rest key

def getD {α : Type} (m : SMap α) (key : String) (dflt : α) : α :=
  (m.get? key).getD dflt

def set {α : Type} : SMap α → String → α → SMap α
  | [], key, v => [(key, v)]
  | (k, w) :: rest, key, v =>
      if k = key then (k, v) :: rest else (k, w) :: set rest key v

def containsKey {α : Type} (m : SMap α) (key : String) : Bool :=
  (m.get? key).isSome

def keys {α : Type} (m : SMap α) : List String := m.map Prod.fst

end SMap

/-! ## `tailBuffer` (main.go)

```go
type tailBuffer struct { limit int; data []byte }

func (b *tailBuffer) Write(p []byte) (int, error) {
    if b.limit <= 0 { return len(p), nil }
    if len(p) >= b.limit {
        b.data = append(b.data[:0], p[len(p)-b.limit:]...)
        return len(p), nil
    }
    total := len(b.data) + len(p)
    if total <= b.limit { b.data = append(b.data, p...); return len(p), nil }
    overflow := total - b.limit
    b.data = append(b.data[overflow:], p...)
    return len(p), nil
}
```

`Write` never returns a non-nil error; the returned error is embedded
as `Option String` (always `none`).
-/

structure TailBuffer where
  limit : Int
  data : List UInt8

def TailBuffer.write (b : TailBuffer) (p : List UInt8) :
    TailBuffer × Nat × Option String :=
  if b.limit ≤ 0 then (b, p.length, none)
  else if b.limit ≤ (p.length : Int) then
    ({ b with data := p.drop (p.length - b.limit.toNat) }, p.length, none)
  else if ((b.data.length + p.length : Nat) : Int) ≤ b.limit then
    -- total := len(b.data) + len(p)
    ({ b with data := b.data ++ p }, p.length, none)
  else
    -- overflow := total - b.limit
    ({ b with data := b.data.drop (b.data.length + p.length - b.limit.toNat) ++ p },
     p.length, none)

/-- The buffer after a sequence of `Write` calls, starting from the
fresh `&tailBuffer{limit: L}` (empty data). -/
def TailBuffer.writeAll (L : Int) (ps : List (List UInt8)) : TailBuffer :=
  ps.foldl (fun b p => (b.write p).1) ⟨L, []⟩

/-- The last `n` elements of a list (`l.drop (l.length - n)`). -/
def lastN {α : Type} (n : Nat) (l : List α) : List α :=
  l.drop (l.length - n)

/-! ## `Logger.log` (logger.go)

```go
func (l *Logger) log(level, msg string) {
    if l == nil { return }
    if l.closed.Load() { return }
    entry := logEntry{level: level, msg: msg}
    l.pendingWG.Add(1)
    select {
    case l.ch <- entry:          // possible iff the queue has free space
    case <-l.done:               // possible iff the logger is closing
        l.pendingWG.Done()
        return
    }
}
```

`l.ch` is a buffered channel of capacity 1000 (`make(chan logEntry, 1000)`).
The producer-visible state of the logger is embedded as the queue
contents plus the `done`-closed flag (`closing`) and the `closed`
atomic flag.  A Go `select` without a `default` clause commits to a
ready communication, chosen nondeterministically when several are
ready, and blocks the goroutine when none is; `LogStep` is the
corresponding step relation for one `log` call, with outcome
`enqueued` (entry appended to the queue), `dropped` (call returns with
the entry discarded and the queue unchanged) or `blocked` (the caller
waits: no case of the select is ready).
-/

structure LogEntry where
  level : String
  msg : String
deriving DecidableEq

def loggerQueueCapacity : Nat := 1000

structure LoggerState where
  queue : List LogEntry
  closing : Bool
  closed : Bool

inductive LogOutcome where
  | enqueued (queue : List LogEntry)
  | dropped
  | blocked
deriving DecidableEq

inductive LogStep : LoggerState → LogEntry → LogOutcome → Prop where
  | closedDrop {s : LoggerState} {e : LogEntry} :
      s.closed = true → LogStep s e .dropped
  | send {s : LoggerState} {e : LogEntry} :
      s.closed = false → s.queue.length < loggerQueueCapacity →
      LogStep s e (.enqueued (s.queue ++ [e]))
  | closingDrop {s : LoggerState} {e : LogEntry} :
      s.closed = false → s.closing = true → LogStep s e .dropped
  | fullBlock {s : LoggerState} {e : LogEntry} :
      s.closed = false → loggerQueueCapacity ≤ s.queue.length →
      s.closing = false → LogStep s e .blocked

/-! ## Log-file lifecycle of `run` (main.go) and `Logger` (logger.go)

```go
defer func() {
    logger := activeLogger()
    if logger != nil { logger.Flush() }
    if err := closeLogger(); err != nil { ... }
    // Always remove log file after completion
    if logger != nil {
        if err := logger.RemoveLogFile(); err != nil && !os.IsNotExist(err) {
            // Silently ignore removal errors
        }
    }
}()
```

`Logger.Close` flushes, syncs and closes the file but does not remove
it; `Logger.RemoveLogFile` removes it (`os.Remove(l.path)`).  The
file-system footprint of one process is embedded as whether the log
file exists plus whether the logger has been closed.
-/

structure LogFileState where
  logFileExists : Bool
  loggerClosed : Bool

/-- `Logger.Close`: stops the worker, flushes and closes the file,
which is NOT removed by `Close` itself. -/
def loggerClose (fs : LogFileState) : LogFileState :=
  { fs with loggerClosed := true }

/-- `Logger.RemoveLogFile`: `os.Remove(l.path)`. -/
def removeLogFile (fs : LogFileState) : LogFileState :=
  { fs with logFileExists := false }

/-- The deferred cleanup that `run` registers right after the logger is
successfully created, executed on every normal (non-crash) exit path of
`run`: `Flush` (no file-system effect), `closeLogger`, then
unconditionally `RemoveLogFile`. -/
def runDeferredCleanup (fs : LogFileState) : LogFileState :=
  removeLogFile (loggerClose fs)

/-- The file-system state right after `NewLogger` succeeded: the log
file `codex-wrapper-<pid>.log` has been created under the temp
directory, and the logger is open. -/
def openedLoggerState : LogFileState :=
  { logFileExists := true, loggerClosed := false }

/-! ## `normalizeText` and `parseJSONStreamWithLog` (main.go)

```go
func normalizeText(text interface{}) string {
    switch v := text.(type) {
    case string: return v
    case []interface{}:
        var sb strings.Builder
        for _, item := range v {
            if s, ok := item.(string); ok { sb.WriteString(s) }
        }
        return sb.String()
    default: return ""
    }
}
```

The dynamic `interface{}` value of the `text` field is embedded as the
tagged union `JsonText` (a decoded JSON string, a decoded JSON array,
or anything else — number, object, bool, null or an absent field).
-/

inductive JsonText where
  | str (s : String)
  | arr (elems : List JsonText)
  | other

def normalizeText : JsonText → String
  | .str v => v
  | .arr v => v.foldl (fun sb item =>
      match item with
      | .str s => sb ++ s
      | _ => sb) ""
  | .other => ""

def JsonText.asString : JsonText → Option String
  | .str s => some s
  | _ => none

/-- `EventItem`: the `item` field of a decoded event.  A missing
`text` field unmarshals to `nil`, which `normalizeText` sends to `""`
exactly like any non-string, non-array value, so it is embedded as
`JsonText.other`. -/
structure EventItem where
  type : String
  text : JsonText

/-- `JSONEvent`: one successfully unmarshalled line.  A missing
`thread_id` field unmarshals to `""`. -/
structure JSONEvent where
  type : String
  threadID : String
  item : Option EventItem

/-- One line of the child's stdout as seen by the scanner loop: blank
after trimming (skipped), not valid JSON (warned and skipped), or a
decoded event. -/
inductive StreamLine where
  | blank
  | malformed
  | event (e : JSONEvent)

/-- The `switch event.Type` body of the scanner loop, acting on the
`(message, threadID)` accumulator:

```go
switch event.Type {
case "thread.started":
    threadID = event.ThreadID
case "item.completed":
    var normalized string
    if event.Item != nil { normalized = normalizeText(event.Item.Text) }
    if event.Item != nil && event.Item.Type == "agent_message" && normalized != "" {
        message = normalized
    }
}
```
-/
def processEvent (st : String × String) (e : JSONEvent) : String × String :=
  if e.type = "thread.started" then (st.1, e.threadID)
  else if e.type = "item.completed" then
    match e.item with
    | some it =>
        let normalized := normalizeText it.text
        if it.type = "agent_message" ∧ normalized ≠ "" then (normalized, st.2)
        else st
    | none => st
  else st

/-- One pass of the scanner loop body: blank lines are skipped
(`continue`), undecodable lines are warned about and skipped
(`continue`), decoded events go through the `switch`. -/
def processLine (st : String × String) : StreamLine → String × String
  | .blank => st
  | .malformed => st
  | .event e => processEvent st e

/-- `parseJSONStreamWithLog`, restricted to its data result
`(message, threadID)`: a left fold of the loop body over the lines,
starting from `("", "")`. -/
def parseJSONStream (lines : List StreamLine) : String × String :=
  lines.foldl processLine ("", "")

/-- `strings.Builder` accumulation: concatenation of a list of strings
in order. -/
def concatStrings (l : List String) : String :=
  l.foldl (fun a b => a ++ b) ""

/-- The normalised text of `l`, when `l` is an `item.completed` event
whose item is an `agent_message` with non-empty normalised text. -/
def agentMessageText (l : StreamLine) : Option String :=
  match l with
  | .event e =>
      if e.type = "item.completed" then
        match e.item with
        | some it =>
            if it.type = "agent_message" ∧ normalizeText it.text ≠ "" then
              some (normalizeText it.text)
            else none
        | none => none
      else none
  | _ => none

/-- The `thread_id` recorded by `l`, when `l` is a `thread.started`
event (the recorded value may be empty). -/
def threadStartedId (l : StreamLine) : Option String :=
  match l with
  | .event e => if e.type = "thread.started" then some e.threadID else none
  | _ => none

/-! ## Constants (main.go) -/

def defaultTimeout : Int := 7200

def stderrCaptureLimit : Int := 4 * 1024

/-- The Go string constant `stdinSpecialChars = "\n\\\"'`$"`:
newline, backslash, double quote, single quote, backtick, dollar. -/
def stdinSpecialChars : List Char :=
  [Char.ofNat 10, Char.ofNat 92, Char.ofNat 34, Char.ofNat 39,
   Char.ofNat 96, Char.ofNat 36]

/-! ## `resolveTimeout` (main.go)

```go
func resolveTimeout() int {
    raw := os.Getenv("CODEX_TIMEOUT")
    if raw == "" { return defaultTimeout }
    parsed, err := strconv.Atoi(raw)
    if err != nil || parsed <= 0 { logWarn(...); return defaultTimeout }
    if parsed > 10000 { return parsed / 1000 }
    return parsed
}
```

The environment is embedded as the `Option String` value of
`CODEX_TIMEOUT` (`none` = unset, which `os.Getenv` reports as `""`).
`strconv.Atoi` is embedded by `atoi`: optional single sign, at least
one decimal digit, 64-bit signed range check; anything else is an
error (`none`).
-/

def digitsVal : List Char → Option Nat
  | [] => none
  | cs =>
      cs.foldl (fun acc c =>
        match acc with
        | none => none
        | some n => if c.isDigit then some (n * 10 + (c.toNat - 48)) else none)
        (some 0)

def atoi (s : String) : Option Int :=
  match s.data with
  | [] => none
  | c :: rest =>
      let signedDigits : Int × List Char :=
        if c = Char.ofNat 43 then (1, rest)
        else if c = Char.ofNat 45 then (-1, rest)
        else (1, c :: rest)
      match digitsVal signedDigits.2 with
      | none => none
      | some n =>
          let v : Int := signedDigits.1 * (n : Int)
          if v < -(2 ^ 63) ∨ 2 ^ 63 - 1 < v then none else some v

def resolveTimeout (env : Option String) : Int :=
  let raw := env.getD ""
  if raw = "" then defaultTimeout
  else
    match atoi raw with
    | none => defaultTimeout
    | some parsed =>
        if parsed ≤ 0 then defaultTimeout
        else if 10000 < parsed then parsed / 1000
        else parsed

/-- The timeout expressed in milliseconds, as it reaches the child
process deadline (`time.Duration(timeoutSec) * time.Second`). -/
def resolveTimeoutMillis (env : Option String) : Int :=
  1000 * resolveTimeout env

/-! ## `shouldUseStdin` (main.go)

```go
func shouldUseStdin(taskText string, piped bool) bool {
    if piped { return true }
    if len(taskText) > 800 { return true }
    return strings.IndexAny(taskText, stdinSpecialChars) >= 0
}
```

`len` on a Go string counts bytes, embedded as `String.utf8ByteSize`;
`strings.IndexAny` scans runes, embedded as `String.any`.
-/

def shouldUseStdin (taskText : String) (piped : Bool) : Bool :=
  if piped then true
  else if 800 < taskText.utf8ByteSize then true
  else taskText.data.any (fun c => stdinSpecialChars.contains c)

/-- A task text of exactly `n` ASCII bytes containing none of the
special characters. -/
def plainText (n : Nat) : String := String.mk (List.replicate n (Char.ofNat 97))

/-! ## Task data model (main.go)

`TaskSpec` and `TaskResult` as declared in main.go.  `default` is the
Go zero value (empty strings, nil slice, false). -/

structure TaskSpec where
  id : String
  task : String
  workdir : String
  dependencies : List String
  sessionID : String
  mode : String
  useStdin : Bool
deriving DecidableEq

instance : Inhabited TaskSpec := ⟨⟨"", "", "", [], "", "", false⟩⟩

structure TaskResult where
  taskID : String
  exitCode : Int
  message : String
  sessionID : String
  error : String
deriving DecidableEq

/-- `res.ExitCode != 0 || res.Error != ""`: the condition under which
`executeConcurrent` registers a result in its `failed` map. -/
def TaskResult.failedRes (r : TaskResult) : Bool :=
  !(r.exitCode == 0) || !(r.error == "")

/-! ## `shouldSkipTask` and `executeConcurrent` (main.go)

```go
func shouldSkipTask(task TaskSpec, failed map[string]TaskResult) (bool, string) {
    if len(task.Dependencies) == 0 { return false, "" }
    var blocked []string
    for _, dep := range task.Dependencies {
        if _, ok := failed[dep]; ok { blocked = append(blocked, dep) }
    }
    if len(blocked) == 0 { return false, "" }
    return true, fmt.Sprintf("skipped due to failed dependencies: %s", strings.Join(blocked, ","))
}
```

`executeConcurrent` walks the layers in order.  Within a layer it first
scans the tasks in order: a task whose `shouldSkipTask` fires gets a
synthesised result (exit 1, skip message) appended to `results` and
registered in `failed` immediately; the remaining tasks are launched in
goroutines, each computing `runCodexTaskFn(ts, timeout)` (or, on panic,
`TaskResult{TaskID: ts.ID, ExitCode: 1, Error: "panic: ..."}`) and
publishing it on a channel whose capacity equals the total task count.
After `wg.Wait()` the layer's launched results are drained from the
channel in arrival order — a scheduler-dependent permutation of the
launched tasks' results — appended to `results`, and the failing ones
registered in `failed`.

The backend invocation is abstracted as an oracle giving the four
result fields other than `TaskID` (the supervisor always constructs
`result := TaskResult{TaskID: taskSpec.ID}` and never changes `TaskID`;
the panic-recovery path likewise uses `ts.ID`).  The arrival order is
abstracted as a per-layer reordering function `shuffle`, constrained to
be a permutation in the theorems. -/

structure TaskOutcome where
  exitCode : Int
  message : String
  sessionID : String
  error : String

abbrev RunOracle := TaskSpec → TaskOutcome

/-- `runCodexTaskFn task timeout` with the backend behaviour abstracted
by `oracle` (the timeout only parameterises the oracle's behaviour and
is dropped in the embedding). -/
def runCodexTaskFn (oracle : RunOracle) (t : TaskSpec) : TaskResult :=
  let o := oracle t
  ⟨t.id, o.exitCode, o.message, o.sessionID, o.error⟩

def shouldSkipTask (task : TaskSpec) (failed : SMap TaskResult) : Bool × String :=
  if task.dependencies = [] then (false, "")
  else
    let blocked := task.dependencies.filter (fun dep => failed.containsKey dep)
    if blocked = [] then (false, "")
    else (true, "skipped due to failed dependencies: " ++ String.intercalate "," blocked)

/-- Accumulator of the in-order scan of one layer: skip results emitted
so far, tasks to be launched, and the `failed` map (updated immediately
for each skip). -/
structure LayerScan where
  results : List TaskResult
  toRun : List TaskSpec
  failed : SMap TaskResult

/-- One step of the in-order scan: a skipping task contributes a
synthesised result (recorded as failed at once), any other task is
queued for launching. -/
def scanStep (acc : LayerScan) (task : TaskSpec) : LayerScan :=
  let sk := shouldSkipTask task acc.failed
  if sk.1 then
    let res : TaskResult := ⟨task.id, 1, "", "", sk.2⟩
    { acc with results := acc.results ++ [res], failed := acc.failed.set task.id res }
  else { acc with toRun := acc.toRun ++ [task] }

def scanLayer (failed : SMap TaskResult) (layer : List TaskSpec) : LayerScan :=
  layer.foldl scanStep ⟨[], [], failed⟩

/-- One step of the post-layer drain loop:
`if res.ExitCode != 0 || res.Error != "" { failed[res.TaskID] = res }`. -/
def regStep (f : SMap TaskResult) (r : TaskResult) : SMap TaskResult :=
  if r.failedRes then f.set r.taskID r else f

/-- The post-layer drain loop: register every failing result. -/
def registerFailures (failed : SMap TaskResult) (rs : List TaskResult) : SMap TaskResult :=
  rs.foldl regStep failed

/-- `d` has a failed result among `rs`. -/
def failedIn (rs : List TaskResult) (d : String) : Bool :=
  rs.any (fun r => r.taskID == d && r.failedRes)

structure ExecState where
  results : List TaskResult
  launched : List TaskSpec
  failed : SMap TaskResult

def execLayers (oracle : RunOracle)
    (shuffle : Nat → List TaskResult → List TaskResult) :
    List (List TaskSpec) → Nat → ExecState → ExecState
  | [], _, st => st
  | layer :: rest, idx, st =>
      let scan := scanLayer st.failed layer
      let arrived := shuffle idx (scan.toRun.map (runCodexTaskFn oracle))
      execLayers oracle shuffle rest (idx + 1)
        ⟨st.results ++ scan.results ++ arrived,
         st.launched ++ scan.toRun,
         registerFailures scan.failed arrived⟩

def executeConcurrent (oracle : RunOracle)
    (shuffle : Nat → List TaskResult → List TaskResult)
    (layers : List (List TaskSpec)) : List TaskResult :=
  (execLayers oracle shuffle layers 0 ⟨[], [], SMap.empty⟩).results

/-- The tasks for which `executeConcurrent` actually invoked the
supervisor (`runCodexTaskFn`), i.e. the tasks launched in goroutines. -/
def launchedTasks (oracle : RunOracle)
    (shuffle : Nat → List TaskResult → List TaskResult)
    (layers : List (List TaskSpec)) : List TaskSpec :=
  (execLayers oracle shuffle layers 0 ⟨[], [], SMap.empty⟩).launched

/-! ## `topologicalSort` (main.go)

Kahn layering, embedded statement by statement.  The two nested
build loops short-circuit on the first unknown dependency
(`Except`/`foldlM`); the `for len(queue) > 0` loop is embedded with
fuel `tasks.length`, which the theorems show is never exhausted with a
non-empty queue for duplicate-free inputs (each id enters the queue at
most once and every iteration consumes at least one id). -/

def depNotFoundMsg (dep taskID : String) : String :=
  "dependency \"" ++ dep ++ "\" not found for task \"" ++ taskID ++ "\""

def idToTaskMap (tasks : List TaskSpec) : SMap TaskSpec :=
  tasks.foldl (fun m t => m.set t.id t) SMap.empty

def indegreeInit (tasks : List TaskSpec) : SMap Int :=
  tasks.foldl (fun m t => m.set t.id 0) SMap.empty

/-- One dependency edge of the build loop:
`indegree[task.ID]++; adj[dep] = append(adj[dep], task.ID)`, or the
`dependency %q not found for task %q` error when `dep` is unknown. -/
def edgeStep (idToTask : SMap TaskSpec) (tid : String)
    (st : SMap Int × SMap (List String)) (dep : String) :
    Except String (SMap Int × SMap (List String)) :=
  if (idToTask.get? dep).isNone then
    .error (depNotFoundMsg dep tid)
  else
    .ok (st.1.set tid (st.1.getD tid 0 + 1),
         st.2.set dep (st.2.getD dep [] ++ [tid]))

/-- The inner edge-building loop for one task. -/
def addEdges (idToTask : SMap TaskSpec)
    (st : SMap Int × SMap (List String)) (task : TaskSpec) :
    Except String (SMap Int × SMap (List String)) :=
  task.dependencies.foldlM (edgeStep idToTask task.id) st

def buildGraph (tasks : List TaskSpec) :
    Except String (SMap Int × SMap (List String)) :=
  tasks.foldlM (addEdges (idToTaskMap tasks)) (indegreeInit tasks, SMap.empty)

/-- `indegree[neighbor]--; if indegree[neighbor] == 0 { next = append(next, neighbor) }` -/
def decrementStep (st : SMap Int × List String) (nb : String) :
    SMap Int × List String :=
  let d := st.1.getD nb 0 - 1
  let m := st.1.set nb d
  if d = 0 then (m, st.2 ++ [nb]) else (m, st.2)

/-- The two nested loops over `current` and `adj[id]` computing the
updated indegree map and `next`. -/
def processCurrent (adj : SMap (List String)) (current : List String)
    (indeg : SMap Int) : SMap Int × List String :=
  current.foldl (fun st id => (adj.getD id []).foldl decrementStep st) (indeg, [])

def kahnLoop (idToTask : SMap TaskSpec) (adj : SMap (List String)) :
    Nat → List String → SMap Int → Nat → List (List TaskSpec) →
    List (List TaskSpec) × SMap Int × Nat
  | 0, _, indeg, processed, layers => (layers, indeg, processed)
  | _ + 1, [], indeg, processed, layers => (layers, indeg, processed)
  | fuel + 1, id0 :: queueRest, indeg, processed, layers =>
      let current := id0 :: queueRest
      let layer := current.map (fun id => idToTask.getD id default)
      let next := processCurrent adj current indeg
      kahnLoop idToTask adj fuel next.2 next.1 (processed + current.length)
        (layers ++ [layer])

def insertSorted (x : String) : List String → List String
  | [] => [x]
  | y :: ys => if x ≤ y then x :: y :: ys else y :: insertSorted x ys

/-- `sort.Strings` (the iteration order of the Go map is irrelevant
after sorting). -/
def sortStrings (l : List String) : List String := l.foldr insertSorted []

/-- `cycle detected involving tasks: <sorted ids with positive indegree>` -/
def cycleErrorMsg (indeg : SMap Int) : String :=
  let cycleIDs := sortStrings ((indeg.filter (fun kv => 0 < kv.2)).map Prod.fst)
  "cycle detected involving tasks: " ++ String.intercalate "," cycleIDs

def topologicalSort (tasks : List TaskSpec) :
    Except String (List (List TaskSpec)) :=
  match buildGraph tasks with
  | .error e => .error e
  | .ok st =>
      let idToTask := idToTaskMap tasks
      let queue0 := (tasks.filter (fun t => st.1.getD t.id 0 = 0)).map TaskSpec.id
      let res := kahnLoop idToTask st.2 tasks.length queue0 st.1 0 []
      if res.2.2 ≠ tasks.length then .error (cycleErrorMsg res.2.1)
      else .ok res.1

/-- `a` is a declared dependency of the task with id `b`. -/
def DepRel (tasks : List TaskSpec) (a b : String) : Prop :=
  ∃ t ∈ tasks, t.id = b ∧ a ∈ t.dependencies

/-- The dependency graph has a (directed) cycle. -/
def HasCycle (tasks : List TaskSpec) : Prop :=
  ∃ id, Relation.TransGen (DepRel tasks) id id

/-- Some task lists a dependency id not present in the batch. -/
def UnknownDep (tasks : List TaskSpec) : Prop :=
  ∃ t ∈ tasks, ∃ d ∈ t.dependencies, d ∉ tasks.map TaskSpec.id

/-- The Go map read `idToTask[id]` (zero-value `TaskSpec` when the key
is absent). -/
def taskOf (tasks : List TaskSpec) (id : String) : TaskSpec :=
  (idToTaskMap tasks).getD id default

/-- The targets of the dependency edges leaving `d`, in build order:
the value the build loop accumulates in `adj[d]`. -/
def adjList (tasks : List TaskSpec) (d : String) : List String :=
  tasks.flatMap (fun t => (t.dependencies.filter (fun x => x = d)).map (fun _ => t.id))

/-- All edge targets with multiplicity: task `t` occurs once per
dependency it lists (the multiset of `indegree` increments). -/
def edgeTargets (tasks : List TaskSpec) : List String :=
  tasks.flatMap (fun t => t.dependencies.map (fun _ => t.id))

/-- The invariant maintained between iterations of the Kahn loop for a
duplicate-free batch with all dependencies known.  `layers.flatten` is
the emitted tasks, `queue` the ids scheduled for the next layer. -/
structure KahnInv (tasks : List TaskSpec) (queue : List String) (indeg : SMap Int)
    (processed : Nat) (layers : List (List TaskSpec)) : Prop where
  nodup : (layers.flatten.map TaskSpec.id ++ queue).Nodup
  subids : ∀ x ∈ layers.flatten.map TaskSpec.id ++ queue, x ∈ tasks.map TaskSpec.id
  procEq : processed = layers.flatten.length
  emitted : ∀ t ∈ layers.flatten, t ∈ tasks ∧ taskOf tasks t.id = t
  indegVal : ∀ k ∈ tasks.map TaskSpec.id,
      indeg.getD k 0 = ((taskOf tasks k).dependencies.countP
        (fun d => decide (d ∉ layers.flatten.map TaskSpec.id)) : Int)
  indegOut : ∀ k, k ∉ tasks.map TaskSpec.id → indeg.getD k 0 = 0
  queueReady : ∀ q ∈ queue, ∀ d ∈ (taskOf tasks q).dependencies,
      d ∈ layers.flatten.map TaskSpec.id
  emittedClosed : ∀ t ∈ layers.flatten, ∀ d ∈ t.dependencies,
      d ∈ layers.flatten.map TaskSpec.id
  remainPos : ∀ k ∈ tasks.map TaskSpec.id,
      k ∉ layers.flatten.map TaskSpec.id ++ queue → indeg.getD k 0 ≠ 0
  layerOrder : ∀ k, (hk : k < layers.length) → ∀ t ∈ layers.get ⟨k, hk⟩,
      ∀ d ∈ t.dependencies, ∃ j, ∃ hj : j < layers.length, j < k
        ∧ ∃ u ∈ layers.get ⟨j, hj⟩, u.id = d

/-!
# Theorems

First the helper lemmas about the embedding, then one theorem per
specification claim (with its witnesses and counterexamples).
-/

theorem SMap.get?_set_self {α : Type} (m : SMap α) (k : String) (v : α) :
    (m.set k v).get? k = some v := by
  induction m with
  | nil => simp [SMap.set, SMap.get?]
  | cons hd tl ih =>
      obtain ⟨k', w⟩ := hd
      by_cases h : k' = k
      · simp [SMap.set, SMap.get?, h]
      · simp [SMap.set, SMap.get?, h, ih]

theorem SMap.get?_set_ne {α : Type} (m : SMap α) (k k' : String) (v : α)
    (h : k ≠ k') : (m.set k v).get? k' = m.get? k' := by
  induction m with
  | nil => simp [SMap.set, SMap.get?, h]
  | cons hd tl ih =>
      obtain ⟨k₀, w⟩ := hd
      by_cases h0 : k₀ = k
      · subst h0
        simp [SMap.set, SMap.get?, h]
      · simp [SMap.set, SMap.get?, h0, ih]

theorem SMap.getD_set_self {α : Type} (m : SMap α) (k : String) (v d : α) :
    (m.set k v).getD k d = v := by
  simp [SMap.getD, SMap.get?_set_self]

theorem SMap.getD_set_ne {α : Type} (m : SMap α) (k k' : String) (v d : α)
    (h : k ≠ k') : (m.set k v).getD k' d = m.getD k' d := by
  simp [SMap.getD, SMap.get?_set_ne _ _ _ _ h]

theorem SMap.containsKey_set {α : Type} (m : SMap α) (k k' : String) (v : α) :
    (m.set k v).containsKey k' = (k = k' || m.containsKey k') := by
  by_cases h : k = k'
  · subst h
    simp [SMap.containsKey, SMap.get?_set_self]
  · simp [SMap.containsKey, SMap.get?_set_ne _ _ _ _ h, h]

/-! ### `topologicalSort`: map-building lemmas -/

theorem idToTaskMap_frame (l : List TaskSpec) (m : SMap TaskSpec) (k : String)
    (hk : k ∉ l.map TaskSpec.id) :
    (l.foldl (fun m t => m.set t.id t) m).get? k = m.get? k := by
  induction l generalizing m with
  | nil => rfl
  | cons t rest ih =>
      simp only [List.map_cons, List.mem_cons, not_or] at hk
      rw [List.foldl_cons, ih _ hk.2,
        SMap.get?_set_ne _ _ _ _ (fun h => hk.1 h.symm)]

theorem idToTaskMap_get (l : List TaskSpec) (m : SMap TaskSpec)
    (hN : (l.map TaskSpec.id).Nodup) (t : TaskSpec) (ht : t ∈ l) :
    (l.foldl (fun m t => m.set t.id t) m).get? t.id = some t := by
  induction l generalizing m with
  | nil => cases ht
  | cons u rest ih =>
      simp only [List.map_cons, List.nodup_cons] at hN
      rcases List.mem_cons.mp ht with h1 | h1
      · subst h1
        rw [List.foldl_cons, idToTaskMap_frame rest _ _ hN.1, SMap.get?_set_self]
      · rw [List.foldl_cons]
        exact ih _ hN.2 h1

theorem idToTaskMap_contains (l : List TaskSpec) (m : SMap TaskSpec) (k : String) :
    (l.foldl (fun m t => m.set t.id t) m).containsKey k = true
      ↔ (k ∈ l.map TaskSpec.id ∨ m.containsKey k = true) := by
  induction l generalizing m with
  | nil => simp
  | cons t rest ih =>
      rw [List.foldl_cons]
      rw [ih (m.set t.id t)]
      rw [SMap.containsKey_set]
      simp only [List.map_cons, List.mem_cons, Bool.or_eq_true, decide_eq_true_eq]
      constructor
      · rintro (h | h | h)
        · exact Or.inl (Or.inr h)
        · exact Or.inl (Or.inl h.symm)
        · exact Or.inr h
      · rintro ((h | h) | h)
        · exact Or.inr (Or.inl h.symm)
        · exact Or.inl h
        · exact Or.inr (Or.inr h)

/-- `taskOf` recovers each task of a duplicate-free batch from its id. -/
theorem taskOf_mem (tasks : List TaskSpec) (hN : (tasks.map TaskSpec.id).Nodup)
    (t : TaskSpec) (ht : t ∈ tasks) : taskOf tasks t.id = t := by
  unfold taskOf idToTaskMap
  rw [SMap.getD, idToTaskMap_get tasks SMap.empty hN t ht]
  rfl

theorem taskOf_id (tasks : List TaskSpec) (hN : (tasks.map TaskSpec.id).Nodup)
    (k : String) (hk : k ∈ tasks.map TaskSpec.id) : (taskOf tasks k).id = k ∧ taskOf tasks k ∈ tasks := by
  obtain ⟨t, ht, rfl⟩ := List.mem_map.mp hk
  rw [taskOf_mem tasks hN t ht]
  exact ⟨rfl, ht⟩

theorem indegreeInit_getD (l : List TaskSpec) (m : SMap Int)
    (hm : ∀ k, m.getD k 0 = 0) (k : String) :
    (l.foldl (fun m t => m.set t.id (0 : Int)) m).getD k 0 = 0 := by
  induction l generalizing m with
  | nil => exact hm k
  | cons t rest ih =>
      rw [List.foldl_cons]
      refine ih _ ?_
      intro k'
      by_cases h : t.id = k'
      · rw [← h, SMap.getD_set_self]
      · rw [SMap.getD_set_ne _ _ _ _ _ h]
        exact hm k'

/-! ### `topologicalSort`: edge-building lemmas -/

/-- The inner loop over one task's dependencies: with all dependencies
known it succeeds, incrementing the task's indegree once per listed
dependency and appending the task id to each dependency's adjacency. -/
theorem edgeFold_ok (idm : SMap TaskSpec) (tid : String) (ds : List String)
    (st : SMap Int × SMap (List String))
    (h : ∀ d ∈ ds, (idm.get? d).isSome = true) :
    ∃ st', ds.foldlM (edgeStep idm tid) st = Except.ok st'
    ∧ (∀ k, st'.1.getD k 0 = st.1.getD k 0 + if k = tid then (ds.length : Int) else 0)
    ∧ (∀ d', st'.2.getD d' []
        = st.2.getD d' [] ++ (ds.filter (fun d => d = d')).map (fun _ => tid)) := by
  induction ds generalizing st with
  | nil =>
      refine ⟨st, rfl, ?_, ?_⟩
      · intro k
        by_cases hk : k = tid <;> simp [hk]
      · intro d'
        simp
  | cons d rest ih =>
      have hd : (idm.get? d).isSome = true := h d (List.mem_cons_self _ _)
      have hrest : ∀ d' ∈ rest, (idm.get? d').isSome = true :=
        fun d' hd' => h d' (List.mem_cons_of_mem _ hd')
      have hnotNone : ¬ ((idm.get? d).isNone = true) := by
        intro h0
        rw [Option.isNone_iff_eq_none.mp h0] at hd
        simp at hd
      have hstep : edgeStep idm tid st d
          = Except.ok (st.1.set tid (st.1.getD tid 0 + 1),
              st.2.set d (st.2.getD d [] ++ [tid])) := by
        unfold edgeStep
        rw [if_neg hnotNone]
      obtain ⟨st', hfold, hind, hadj⟩ := ih
        (st.1.set tid (st.1.getD tid 0 + 1), st.2.set d (st.2.getD d [] ++ [tid])) hrest
      refine ⟨st', ?_, ?_, ?_⟩
      · rw [List.foldlM_cons, hstep]
        simpa using hfold
      · intro k
        rw [hind k]
        by_cases hk : k = tid
        · subst hk
          rw [SMap.getD_set_self]
          simp [List.length_cons]
          ring
        · rw [SMap.getD_set_ne _ _ _ _ _ (fun h0 => hk h0.symm)]
          simp [hk]
      · intro d'
        rw [hadj d']
        by_cases hd' : d = d'
        · subst hd'
          rw [SMap.getD_set_self]
          simp
        · rw [SMap.getD_set_ne _ _ _ _ _ hd']
          have : (List.filter (fun x => decide (x = d')) (d :: rest))
              = List.filter (fun x => decide (x = d')) rest := by
            rw [List.filter_cons]
            simp [hd']
          simp only [this]

/-- The inner loop errors exactly when some dependency is unknown. -/
theorem edgeFold_error (idm : SMap TaskSpec) (tid : String) (ds : List String)
    (st : SMap Int × SMap (List String)) :
    (∃ e, ds.foldlM (edgeStep idm tid) st = Except.error e)
      ↔ ∃ d ∈ ds, idm.get? d = none := by
  induction ds generalizing st with
  | nil =>
      simp only [List.foldlM_nil, List.not_mem_nil, false_and, exists_false, iff_false,
        not_exists]
      exact fun x h => Except.noConfusion h
  | cons d rest ih =>
      rw [List.foldlM_cons]
      by_cases hd : idm.get? d = none
      · have hstep : edgeStep idm tid st d = Except.error (depNotFoundMsg d tid) := by
          unfold edgeStep
          rw [if_pos]
          simp [hd]
        rw [hstep]
        constructor
        · intro _
          exact ⟨d, List.mem_cons_self _ _, hd⟩
        · intro _
          exact ⟨depNotFoundMsg d tid, rfl⟩
      · have hsome : (idm.get? d).isSome = true := by
          cases h0 : idm.get? d
          · exact absurd h0 hd
          · rfl
        have hstep : edgeStep idm tid st d
            = Except.ok (st.1.set tid (st.1.getD tid 0 + 1),
                st.2.set d (st.2.getD d [] ++ [tid])) := by
          unfold edgeStep
          rw [if_neg]
          simp [Option.isNone_iff_eq_none, hd]
        rw [hstep]
        have hbind : (Except.ok (st.1.set tid (st.1.getD tid 0 + 1),
              st.2.set d (st.2.getD d [] ++ [tid])) >>= fun st' =>
              rest.foldlM (edgeStep idm tid) st')
            = rest.foldlM (edgeStep idm tid)
                (st.1.set tid (st.1.getD tid 0 + 1), st.2.set d (st.2.getD d [] ++ [tid])) := rfl
        rw [hbind, ih]
        constructor
        · rintro ⟨d', hmem, hnone⟩
          exact ⟨d', List.mem_cons_of_mem _ hmem, hnone⟩
        · rintro ⟨d', hmem, hnone⟩
          rcases List.mem_cons.mp hmem with h1 | h1
          · subst h1
            exact absurd hnone hd
          · exact ⟨d', h1, hnone⟩

/-! ### `topologicalSort`: whole-build characterisation -/

theorem buildFold_error (idm : SMap TaskSpec) (l : List TaskSpec)
    (st : SMap Int × SMap (List String)) :
    (∃ e, l.foldlM (addEdges idm) st = Except.error e)
      ↔ ∃ t ∈ l, ∃ d ∈ t.dependencies, idm.get? d = none := by
  induction l generalizing st with
  | nil =>
      simp only [List.foldlM_nil, List.not_mem_nil, false_and, exists_false, iff_false,
        not_exists]
      exact fun x h => Except.noConfusion h
  | cons t rest ih =>
      rw [List.foldlM_cons]
      by_cases herr : ∃ d ∈ t.dependencies, idm.get? d = none
      · obtain ⟨e, heq⟩ := (edgeFold_error idm t.id t.dependencies st).mpr herr
        have : addEdges idm st t = Except.error e := heq
        rw [this]
        constructor
        · intro _
          exact ⟨t, List.mem_cons_self _ _, herr⟩
        · intro _
          exact ⟨e, rfl⟩
      · push_neg at herr
        have hall : ∀ d ∈ t.dependencies, (idm.get? d).isSome = true := by
          intro d hd
          cases h0 : idm.get? d
          · exact absurd h0 (herr d hd)
          · rfl
        obtain ⟨st', hok, _, _⟩ := edgeFold_ok idm t.id t.dependencies st hall
        have : addEdges idm st t = Except.ok st' := hok
        rw [this]
        have hbind : (Except.ok st' >>= fun s => rest.foldlM (addEdges idm) s)
            = rest.foldlM (addEdges idm) st' := rfl
        rw [hbind, ih st']
        constructor
        · rintro ⟨u, hu, hd⟩
          exact ⟨u, List.mem_cons_of_mem _ hu, hd⟩
        · rintro ⟨u, hu, d, hd, hnone⟩
          rcases List.mem_cons.mp hu with h1 | h1
          · subst h1
            exact absurd hnone (herr d hd)
          · exact ⟨u, h1, d, hd, hnone⟩

theorem count_constMap {α : Type} (ds : List α) (x k : String) :
    ((ds.map (fun _ => x)).count k) = if k = x then ds.length else 0 := by
  induction ds with
  | nil => simp
  | cons d rest ih =>
      simp only [List.map_cons, List.count_cons, ih]
      by_cases hk : k = x
      · simp [hk]
      · have hne : ¬ ((x == k) = true) := by
          simp only [beq_iff_eq]
          exact fun h => hk h.symm
        simp [hk, hne]

theorem buildFold_ok (idm : SMap TaskSpec) (l : List TaskSpec)
    (st0 : SMap Int × SMap (List String))
    (hall : ∀ t ∈ l, ∀ d ∈ t.dependencies, (idm.get? d).isSome = true) :
    ∃ st, l.foldlM (addEdges idm) st0 = Except.ok st
    ∧ (∀ k, st.1.getD k 0 = st0.1.getD k 0
        + ((l.flatMap (fun t => t.dependencies.map (fun _ => t.id))).count k : Int))
    ∧ (∀ d', st.2.getD d' [] = st0.2.getD d' []
        ++ l.flatMap (fun t => (t.dependencies.filter (fun x => x = d')).map (fun _ => t.id))) := by
  induction l generalizing st0 with
  | nil =>
      refine ⟨st0, rfl, ?_, ?_⟩
      · intro k
        simp
      · intro d'
        simp
  | cons t rest ih =>
      have hallt : ∀ d ∈ t.dependencies, (idm.get? d).isSome = true :=
        fun d hd => hall t (List.mem_cons_self _ _) d hd
      have hallr : ∀ u ∈ rest, ∀ d ∈ u.dependencies, (idm.get? d).isSome = true :=
        fun u hu d hd => hall u (List.mem_cons_of_mem _ hu) d hd
      obtain ⟨st1, hok1, hind1, hadj1⟩ := edgeFold_ok idm t.id t.dependencies st0 hallt
      obtain ⟨st2, hok2, hind2, hadj2⟩ := ih st1 hallr
      refine ⟨st2, ?_, ?_, ?_⟩
      · rw [List.foldlM_cons]
        have : addEdges idm st0 t = Except.ok st1 := hok1
        rw [this]
        exact hok2
      · intro k
        rw [hind2 k, hind1 k, List.flatMap_cons, List.count_append, count_constMap]
        push_cast
        by_cases hk : k = t.id <;> simp [hk] <;> ring
      · intro d'
        rw [hadj2 d', hadj1 d', List.flatMap_cons, List.append_assoc]

/-- The characterisation of a successful `buildGraph`. -/
theorem buildGraph_ok (tasks : List TaskSpec)
    (hK : ∀ t ∈ tasks, ∀ d ∈ t.dependencies, d ∈ tasks.map TaskSpec.id) :
    ∃ st, buildGraph tasks = Except.ok st
    ∧ (∀ k, st.1.getD k 0 = ((edgeTargets tasks).count k : Int))
    ∧ (∀ d', st.2.getD d' [] = adjList tasks d') := by
  have hall : ∀ t ∈ tasks, ∀ d ∈ t.dependencies,
      ((idToTaskMap tasks).get? d).isSome = true := by
    intro t ht d hd
    have : (idToTaskMap tasks).containsKey d = true := by
      unfold idToTaskMap
      rw [idToTaskMap_contains]
      exact Or.inl (hK t ht d hd)
    unfold SMap.containsKey at this
    exact this
  obtain ⟨st, hok, hind, hadj⟩ := buildFold_ok (idToTaskMap tasks) tasks
    (indegreeInit tasks, SMap.empty) hall
  refine ⟨st, hok, ?_, ?_⟩
  · intro k
    rw [hind k]
    have h0 : (indegreeInit tasks, (SMap.empty : SMap (List String))).1.getD k 0 = 0 :=
      indegreeInit_getD tasks SMap.empty (fun _ => rfl) k
    rw [h0]
    simp [edgeTargets]
  · intro d'
    rw [hadj d']
    rfl

/-- `buildGraph` errors exactly on an unknown dependency. -/
theorem buildGraph_error (tasks : List TaskSpec) :
    (∃ e, buildGraph tasks = Except.error e) ↔ UnknownDep tasks := by
  unfold buildGraph UnknownDep
  rw [buildFold_error]
  constructor
  · rintro ⟨t, ht, d, hd, hnone⟩
    refine ⟨t, ht, d, hd, ?_⟩
    intro hmem
    have : (idToTaskMap tasks).containsKey d = true := by
      unfold idToTaskMap
      rw [idToTaskMap_contains]
      exact Or.inl hmem
    unfold SMap.containsKey at this
    rw [hnone] at this
    cases this
  · rintro ⟨t, ht, d, hd, hnmem⟩
    refine ⟨t, ht, d, hd, ?_⟩
    cases h0 : (idToTaskMap tasks).get? d
    · rfl
    · exfalso
      have : (idToTaskMap tasks).containsKey d = true := by
        unfold SMap.containsKey
        rw [h0]
        rfl
      unfold idToTaskMap at this
      rw [idToTaskMap_contains] at this
      rcases this with h1 | h1
      · exact hnmem h1
      · cases h1

/-! ### `topologicalSort`: counting lemmas for edges and adjacency -/

theorem edgeTargets_count_zero (tasks : List TaskSpec) (k : String)
    (hk : k ∉ tasks.map TaskSpec.id) : (edgeTargets tasks).count k = 0 := by
  rw [List.count_eq_zero]
  intro hmem
  unfold edgeTargets at hmem
  rw [List.mem_flatMap] at hmem
  obtain ⟨t, ht, hmem2⟩ := hmem
  rw [List.mem_map] at hmem2
  obtain ⟨d, _, heq⟩ := hmem2
  exact hk (List.mem_map.mpr ⟨t, ht, heq⟩)

theorem edgeTargets_count_mem (tasks : List TaskSpec)
    (hN : (tasks.map TaskSpec.id).Nodup) (t : TaskSpec) (ht : t ∈ tasks) :
    (edgeTargets tasks).count t.id = t.dependencies.length := by
  induction tasks with
  | nil => cases ht
  | cons u rest ih =>
      simp only [List.map_cons, List.nodup_cons] at hN
      unfold edgeTargets
      rw [List.flatMap_cons, List.count_append, count_constMap]
      rcases List.mem_cons.mp ht with h1 | h1
      · subst h1
        rw [if_pos rfl]
        have h0 : (edgeTargets rest).count t.id = 0 :=
          edgeTargets_count_zero rest t.id hN.1
        unfold edgeTargets at h0
        omega
      · have hne : t.id ≠ u.id := by
          intro h0
          exact hN.1 (h0 ▸ List.mem_map.mpr ⟨t, h1, rfl⟩)
        rw [if_neg hne]
        have := ih hN.2 h1
        unfold edgeTargets at this
        omega

theorem adjList_count_zero (tasks : List TaskSpec) (d k : String)
    (hk : k ∉ tasks.map TaskSpec.id) : (adjList tasks d).count k = 0 := by
  rw [List.count_eq_zero]
  intro hmem
  unfold adjList at hmem
  rw [List.mem_flatMap] at hmem
  obtain ⟨t, ht, hmem2⟩ := hmem
  rw [List.mem_map] at hmem2
  obtain ⟨x, _, heq⟩ := hmem2
  exact hk (List.mem_map.mpr ⟨t, ht, heq⟩)

theorem countP_eq_count (l : List String) (c : String) :
    l.countP (fun x => decide (x = c)) = l.count c := by
  induction l with
  | nil => rfl
  | cons x rest ih =>
      rw [List.countP_cons, List.count_cons, ih]
      by_cases h : x = c
      · simp [h]
      · have h2 : ¬ ((x == c) = true) := by
          simp only [beq_iff_eq]
          exact h
        simp [h, h2]

theorem adjList_count_mem (tasks : List TaskSpec)
    (hN : (tasks.map TaskSpec.id).Nodup) (t : TaskSpec) (ht : t ∈ tasks) (d : String) :
    (adjList tasks d).count t.id = t.dependencies.count d := by
  induction tasks with
  | nil => cases ht
  | cons u rest ih =>
      simp only [List.map_cons, List.nodup_cons] at hN
      unfold adjList
      rw [List.flatMap_cons, List.count_append, count_constMap]
      rcases List.mem_cons.mp ht with h1 | h1
      · subst h1
        rw [if_pos rfl]
        have h0 : (adjList rest d).count t.id = 0 :=
          adjList_count_zero rest d t.id hN.1
        unfold adjList at h0
        rw [h0, ← List.countP_eq_length_filter, countP_eq_count]
        omega
      · have hne : t.id ≠ u.id := by
          intro h0
          exact hN.1 (h0 ▸ List.mem_map.mpr ⟨t, h1, rfl⟩)
        rw [if_neg hne]
        have := ih hN.2 h1
        unfold adjList at this
        omega

theorem adjList_mem (tasks : List TaskSpec) (d y : String)
    (hy : y ∈ adjList tasks d) : ∃ t ∈ tasks, y = t.id ∧ d ∈ t.dependencies := by
  unfold adjList at hy
  rw [List.mem_flatMap] at hy
  obtain ⟨t, ht, hmem⟩ := hy
  rw [List.mem_map] at hmem
  obtain ⟨x, hx, heq⟩ := hmem
  rw [List.mem_filter] at hx
  refine ⟨t, ht, heq.symm, ?_⟩
  have : x = d := by simpa using hx.2
  exact this ▸ hx.1

theorem countP_split {α : Type} (l : List α) (p q r : α → Bool)
    (h : ∀ x ∈ l, (p x = true ↔ (q x = true ∨ r x = true)) ∧ ¬(q x = true ∧ r x = true)) :
    l.countP p = l.countP q + l.countP r := by
  induction l with
  | nil => rfl
  | cons x rest ih =>
      have hx := h x (List.mem_cons_self _ _)
      have hrest := fun y hy => h y (List.mem_cons_of_mem _ hy)
      rw [List.countP_cons, List.countP_cons, List.countP_cons, ih hrest]
      rcases hx with ⟨hiff, hnot⟩
      by_cases hp : p x = true
      · rcases hiff.mp hp with hq | hr
        · have hrF : ¬ (r x = true) := fun hr => hnot ⟨hq, hr⟩
          simp [hp, hq, hrF]
          omega
        · have hqF : ¬ (q x = true) := fun hq => hnot ⟨hq, hr⟩
          simp [hp, hr, hqF]
          omega
      · have hqF : ¬ (q x = true) := fun hq => hp (hiff.mpr (Or.inl hq))
        have hrF : ¬ (r x = true) := fun hr => hp (hiff.mpr (Or.inr hr))
        simp [hp, hqF, hrF]

/-- How many dependency edges out of `current` point into `k`:
for a known id it is the number of `k`'s dependencies lying in
`current`, otherwise zero. -/
theorem flatAdj_count (tasks : List TaskSpec) (hN : (tasks.map TaskSpec.id).Nodup)
    (adj : SMap (List String)) (hadj : ∀ d, adj.getD d [] = adjList tasks d)
    (current : List String) (hcur : current.Nodup) (k : String) :
    (current.flatMap (fun c => adj.getD c [])).count k
      = if k ∈ tasks.map TaskSpec.id
        then (taskOf tasks k).dependencies.countP (fun d => decide (d ∈ current))
        else 0 := by
  induction current with
  | nil =>
      simp only [List.flatMap_nil, List.count_nil]
      by_cases hk : k ∈ tasks.map TaskSpec.id
      · rw [if_pos hk]
        have : ∀ d ∈ (taskOf tasks k).dependencies, ¬ (decide (d ∈ ([] : List String)) = true) := by
          intro d _
          simp
        rw [List.countP_eq_zero.mpr this]
      · rw [if_neg hk]
  | cons c cur' ih =>
      have hcur' : cur'.Nodup := (List.nodup_cons.mp hcur).2
      have hcnot : c ∉ cur' := (List.nodup_cons.mp hcur).1
      rw [List.flatMap_cons, List.count_append, ih hcur', hadj c]
      by_cases hk : k ∈ tasks.map TaskSpec.id
      · rw [if_pos hk, if_pos hk]
        obtain ⟨hkid, hkmem⟩ := taskOf_id tasks hN k hk
        have hcnt : (adjList tasks c).count k = (taskOf tasks k).dependencies.count c := by
          have := adjList_count_mem tasks hN (taskOf tasks k) hkmem c
          rwa [hkid] at this
        rw [hcnt]
        have hsplit : (taskOf tasks k).dependencies.countP (fun d => decide (d ∈ c :: cur'))
            = (taskOf tasks k).dependencies.countP (fun d => decide (d = c))
              + (taskOf tasks k).dependencies.countP (fun d => decide (d ∈ cur')) := by
          refine countP_split _ _ _ _ ?_
          intro x _
          constructor
          · simp only [decide_eq_true_eq, List.mem_cons]
          · simp only [decide_eq_true_eq]
            rintro ⟨h1, h2⟩
            exact hcnot (h1 ▸ h2)
        rw [hsplit, countP_eq_count]
      · rw [if_neg hk, if_neg hk, adjList_count_zero tasks c k hk]

/-! ### `topologicalSort`: the decrement loop -/

theorem decFold_char (L : List String) (st : SMap Int × List String)
    (hle : ∀ k, (L.count k : Int) ≤ st.1.getD k 0) :
    (∀ k, (L.foldl decrementStep st).1.getD k 0 = st.1.getD k 0 - L.count k)
    ∧ (∀ k, (L.foldl decrementStep st).2.count k
        = st.2.count k + (if st.1.getD k 0 = (L.count k : Int) ∧ k ∈ L then 1 else 0)) := by
  induction L generalizing st with
  | nil =>
      refine ⟨fun k => by simp, fun k => by simp⟩
  | cons a rest ih =>
      have hstep : decrementStep st a
          = (st.1.set a (st.1.getD a 0 - 1),
             if st.1.getD a 0 - 1 = 0 then st.2 ++ [a] else st.2) := by
        unfold decrementStep
        by_cases h0 : st.1.getD a 0 - 1 = 0
        · rw [if_pos h0, if_pos h0]
        · rw [if_neg h0, if_neg h0]
      have hgetD : ∀ k, (decrementStep st a).1.getD k 0
          = st.1.getD k 0 - if k = a then 1 else 0 := by
        intro k
        rw [hstep]
        by_cases hk : k = a
        · subst hk
          simp [SMap.getD_set_self]
        · rw [if_neg hk]
          have : a ≠ k := fun h => hk h.symm
          simp [SMap.getD_set_ne _ _ _ _ _ this]
      have hle' : ∀ k, (rest.count k : Int) ≤ (decrementStep st a).1.getD k 0 := by
        intro k
        rw [hgetD k]
        have := hle k
        rw [List.count_cons] at this
        by_cases hk : k = a
        · subst hk
          simp at this ⊢
          omega
        · have hne : ¬ ((a == k) = true) := by
            simp only [beq_iff_eq]
            exact fun h => hk h.symm
          simp [hne] at this
          simp [hk]
          omega
      obtain ⟨hind, hacc⟩ := ih (decrementStep st a) hle'
      constructor
      · intro k
        rw [List.foldl_cons, hind k, hgetD k, List.count_cons]
        by_cases hk : k = a
        · subst hk
          simp
          omega
        · have hne : ¬ ((a == k) = true) := by
            simp only [beq_iff_eq]
            exact fun h => hk h.symm
          simp [hne, hk]
      · intro k
        rw [List.foldl_cons, hacc k, hgetD k, List.count_cons]
        have haccStep : (decrementStep st a).2.count k
            = st.2.count k + (if k = a ∧ st.1.getD a 0 = 1 then 1 else 0) := by
          rw [hstep]
          by_cases h0 : st.1.getD a 0 - 1 = 0
          · rw [if_pos h0, List.count_append]
            have h1 : st.1.getD a 0 = 1 := by omega
            by_cases hk : k = a
            · subst hk
              simp [h1, List.count_cons]
            · have hne : ¬ ((a == k) = true) := by
                simp only [beq_iff_eq]
                exact fun h => hk h.symm
              simp [hk, hne, List.count_cons]
          · rw [if_neg h0]
            have h1 : ¬ (st.1.getD a 0 = 1) := by omega
            by_cases hk : k = a
            · simp [hk, h1]
            · simp [hk]
        rw [haccStep]
        by_cases hk : k = a
        · subst hk
          have hcl := hle k
          rw [List.count_cons] at hcl
          simp only [beq_self_eq_true, if_true] at hcl
          simp only [eq_self_iff_true, true_and, if_true, beq_self_eq_true,
            List.mem_cons, true_or, and_true]
          by_cases hmem : k ∈ rest
          · have hcpos : 0 < rest.count k := List.count_pos_iff.mpr hmem
            simp only [hmem, and_true]
            split_ifs <;> omega
          · have hc0 : rest.count k = 0 := List.count_eq_zero.mpr hmem
            simp only [hmem, and_false, if_false]
            split_ifs <;> omega
        · have hne : ¬ ((a == k) = true) := by
            simp only [beq_iff_eq]
            exact fun h => hk h.symm
          simp only [hne, if_false, if_neg hk, Nat.add_zero, List.mem_cons]
          have hmr : (k = a ∨ k ∈ rest) ↔ k ∈ rest := by tauto
          simp only [hmr, hk, false_and, if_false, Nat.add_zero, sub_zero]
          simp

theorem processCurrent_eq_flat (adj : SMap (List String)) (current : List String)
    (indeg : SMap Int) :
    processCurrent adj current indeg
      = (current.flatMap (fun c => adj.getD c [])).foldl decrementStep (indeg, []) := by
  unfold processCurrent
  suffices h : ∀ (cs : List String) (st : SMap Int × List String),
      cs.foldl (fun st id => (adj.getD id []).foldl decrementStep st) st
        = (cs.flatMap (fun c => adj.getD c [])).foldl decrementStep st by
    exact h current (indeg, [])
  intro cs
  induction cs with
  | nil => intro st; rfl
  | cons c rest ih =>
      intro st
      rw [List.foldl_cons, List.flatMap_cons, List.foldl_append, ih]

theorem nodup_length_le (l l' : List String) (hN : l.Nodup) (hsub : ∀ x ∈ l, x ∈ l') :
    l.length ≤ l'.length := by
  have h1 : l.toFinset.card = l.length := List.toFinset_card_of_nodup hN
  have h2 : l.toFinset ⊆ l'.toFinset := by
    intro x hx
    rw [List.mem_toFinset] at hx ⊢
    exact hsub x hx
  have h3 : l.toFinset.card ≤ l'.toFinset.card := Finset.card_le_card h2
  have h4 : l'.toFinset.card ≤ l'.length := List.toFinset_card_le l'
  omega

theorem nodup_subset_full (l l' : List String) (hN : l.Nodup) (hN' : l'.Nodup)
    (hsub : ∀ x ∈ l, x ∈ l') (hlen : l'.length ≤ l.length) :
    ∀ x ∈ l', x ∈ l := by
  have h1 : l.toFinset.card = l.length := List.toFinset_card_of_nodup hN
  have h1' : l'.toFinset.card = l'.length := List.toFinset_card_of_nodup hN'
  have h2 : l.toFinset ⊆ l'.toFinset := by
    intro x hx
    rw [List.mem_toFinset] at hx ⊢
    exact hsub x hx
  have h3 : l.toFinset = l'.toFinset := by
    refine Finset.eq_of_subset_of_card_le h2 ?_
    omega
  intro x hx
  have hx' : x ∈ l'.toFinset := List.mem_toFinset.mpr hx
  rw [← h3] at hx'
  exact List.mem_toFinset.mp hx'

/-- Any two occurrences of the same id in a duplicate-free layering
live in the same layer. -/
theorem mem_layer_unique : ∀ (layers : List (List TaskSpec)),
    (layers.flatten.map TaskSpec.id).Nodup →
    ∀ i j (hi : i < layers.length) (hj : j < layers.length),
    ∀ u ∈ layers.get ⟨i, hi⟩, ∀ v ∈ layers.get ⟨j, hj⟩, u.id = v.id → i = j := by
  intro layers
  induction layers with
  | nil =>
      intro _ i j hi
      cases hi
  | cons l rest ih =>
      intro hN i j hi hj u hu v hv huv
      rw [List.flatten_cons, List.map_append, List.nodup_append] at hN
      obtain ⟨hN1, hN2, hdisj⟩ := hN
      match i, hi, j, hj with
      | 0, _, 0, _ => rfl
      | 0, _, j + 1, hj =>
          exfalso
          have h1 : u.id ∈ l.map TaskSpec.id := List.mem_map.mpr ⟨u, hu, rfl⟩
          have h2 : v.id ∈ rest.flatten.map TaskSpec.id := by
            refine List.mem_map.mpr ⟨v, ?_, rfl⟩
            rw [List.mem_flatten]
            exact ⟨rest.get ⟨j, by simpa using hj⟩, List.get_mem _ _ _, hv⟩
          rw [huv] at h1
          exact hdisj h1 h2
      | i + 1, hi, 0, _ =>
          exfalso
          have h1 : v.id ∈ l.map TaskSpec.id := List.mem_map.mpr ⟨v, hv, rfl⟩
          have h2 : u.id ∈ rest.flatten.map TaskSpec.id := by
            refine List.mem_map.mpr ⟨u, ?_, rfl⟩
            rw [List.mem_flatten]
            exact ⟨rest.get ⟨i, by simpa using hi⟩, List.get_mem _ _ _, hu⟩
          rw [← huv] at h1
          exact hdisj h1 h2
      | i + 1, hi, j + 1, hj =>
          have := ih hN2 i j (by simpa using hi) (by simpa using hj) u hu v hv huv
          omega

theorem count_le_sum_of_mem (t : TaskSpec) :
    ∀ (rest : List (List TaskSpec)), ∀ l' ∈ rest,
    l'.count t ≤ (rest.map (fun l => l.count t)).sum := by
  intro rest
  induction rest with
  | nil => intro l' h; cases h
  | cons x xs ihx =>
      intro l' hl'
      rw [List.map_cons, List.sum_cons]
      rcases List.mem_cons.mp hl' with h2 | h2
      · subst h2
        omega
      · have := ihx l' h2
        omega

/-- A task that occurs exactly once in the flattened layering lies in
exactly one layer. -/
theorem filter_mem_layers_one (layers : List (List TaskSpec)) (t : TaskSpec)
    (h1 : (layers.map (fun l => l.count t)).sum = 1) :
    (layers.filter (fun l => decide (t ∈ l))).length = 1 := by
  induction layers with
  | nil => cases h1
  | cons l rest ih =>
      rw [List.map_cons, List.sum_cons] at h1
      rw [List.filter_cons]
      by_cases hmem : t ∈ l
      · have hc : 0 < l.count t := List.count_pos_iff.mpr hmem
        have hnone : ∀ l' ∈ rest, t ∉ l' := by
          intro l' hl' hmem'
          have hc' : 0 < l'.count t := List.count_pos_iff.mpr hmem'
          have hle := count_le_sum_of_mem t rest l' hl'
          omega
        have hflt : rest.filter (fun l => decide (t ∈ l)) = [] := by
          rw [List.filter_eq_nil_iff]
          intro l' hl'
          simp only [decide_eq_true_eq]
          exact hnone l' hl'
        simp [hmem, hflt]
      · have hc : l.count t = 0 := List.count_eq_zero.mpr hmem
        rw [hc, Nat.zero_add] at h1
        simp [hmem]
        exact ih h1

/-- The invariant holds on entry to the Kahn loop. -/
theorem kahn_init (tasks : List TaskSpec) (hN : (tasks.map TaskSpec.id).Nodup)
    (hK : ∀ t ∈ tasks, ∀ d ∈ t.dependencies, d ∈ tasks.map TaskSpec.id)
    (indeg0 : SMap Int)
    (hind : ∀ k, indeg0.getD k 0 = ((edgeTargets tasks).count k : Int)) :
    KahnInv tasks ((tasks.filter (fun t => indeg0.getD t.id 0 = 0)).map TaskSpec.id)
      indeg0 0 [] := by
  have hids : ∀ k, k ∈ tasks.map TaskSpec.id →
      indeg0.getD k 0 = ((taskOf tasks k).dependencies.length : Int) := by
    intro k hk
    obtain ⟨hkid, hkmem⟩ := taskOf_id tasks hN k hk
    rw [hind k]
    have := edgeTargets_count_mem tasks hN (taskOf tasks k) hkmem
    rw [hkid] at this
    rw [this]
  refine ⟨?_, ?_, rfl, ?_, ?_, ?_, ?_, ?_, ?_, ?_⟩
  · -- nodup
    simp only [List.flatten_nil, List.map_nil, List.nil_append]
    exact ((List.filter_sublist tasks).map TaskSpec.id).nodup hN
  · -- subids
    intro x hx
    simp only [List.flatten_nil, List.map_nil, List.nil_append] at hx
    obtain ⟨t, ht, rfl⟩ := List.mem_map.mp hx
    exact List.mem_map.mpr ⟨t, (List.mem_filter.mp ht).1, rfl⟩
  · -- emitted
    intro t ht
    simp only [List.flatten_nil] at ht
    cases ht
  · -- indegVal
    intro k hk
    rw [hids k hk]
    congr 1
    simp only [List.flatten_nil, List.map_nil]
    have : ∀ d ∈ (taskOf tasks k).dependencies,
        (decide (d ∉ ([] : List String)) = true) := by
      intro d _
      simp
    rw [List.countP_eq_length.mpr this]
  · -- indegOut
    intro k hk
    rw [hind k, edgeTargets_count_zero tasks k hk]
    rfl
  · -- queueReady
    intro q hq d hd
    simp only [List.flatten_nil, List.map_nil, List.nil_append] at hq ⊢
    obtain ⟨t, ht, rfl⟩ := List.mem_map.mp hq
    obtain ⟨htm, htc⟩ := List.mem_filter.mp ht
    have hz : indeg0.getD t.id 0 = 0 := by simpa using htc
    have hlen : ((taskOf tasks t.id).dependencies.length : Int) = 0 := by
      rw [← hids t.id (List.mem_map.mpr ⟨t, htm, rfl⟩)]
      exact hz
    have : (taskOf tasks t.id).dependencies = [] := by
      have : (taskOf tasks t.id).dependencies.length = 0 := by exact_mod_cast hlen
      exact List.length_eq_zero.mp this
    rw [this] at hd
    cases hd
  · -- emittedClosed
    intro t ht
    simp only [List.flatten_nil] at ht
    cases ht
  · -- remainPos
    intro k hk hknot h0
    simp only [List.flatten_nil, List.map_nil, List.nil_append] at hknot
    obtain ⟨hkid, hkmem⟩ := taskOf_id tasks hN k hk
    refine hknot (List.mem_map.mpr ⟨taskOf tasks k, List.mem_filter.mpr ⟨hkmem, ?_⟩, hkid⟩)
    simp only [decide_eq_true_eq]
    rw [hkid]
    exact h0
  · -- layerOrder
    intro k hk
    cases hk

/-- One iteration of the Kahn loop preserves the invariant: the queued
ids become a layer, the indegrees of their successors drop, and the
next queue collects exactly the ids whose indegree reached zero. -/
theorem kahn_step (tasks : List TaskSpec) (hN : (tasks.map TaskSpec.id).Nodup)
    (adj : SMap (List String)) (hadj : ∀ d, adj.getD d [] = adjList tasks d)
    (queue : List String) (indeg : SMap Int) (processed : Nat)
    (layers : List (List TaskSpec))
    (hInv : KahnInv tasks queue indeg processed layers) :
    KahnInv tasks (processCurrent adj queue indeg).2 (processCurrent adj queue indeg).1
      (processed + queue.length) (layers ++ [queue.map (taskOf tasks)]) := by
  obtain ⟨hnodup, hsubids, hproc, hemit, hindeg, hindout, hready, hclosed, hpos, horder⟩ := hInv
  have hPnodup : (layers.flatten.map TaskSpec.id).Nodup := (List.nodup_append.mp hnodup).1
  have hQnodup : queue.Nodup := (List.nodup_append.mp hnodup).2.1
  have hdisj : ∀ x ∈ layers.flatten.map TaskSpec.id, x ∉ queue :=
    fun x hx => (List.nodup_append.mp hnodup).2.2 hx
  have hQsub : ∀ q ∈ queue, q ∈ tasks.map TaskSpec.id :=
    fun q hq => hsubids q (List.mem_append_right _ hq)
  have hPsub : ∀ x ∈ layers.flatten.map TaskSpec.id, x ∈ tasks.map TaskSpec.id :=
    fun x hx => hsubids x (List.mem_append_left _ hx)
  have hLcount : ∀ k, (queue.flatMap (fun c => adj.getD c [])).count k
      = if k ∈ tasks.map TaskSpec.id
        then (taskOf tasks k).dependencies.countP (fun d => decide (d ∈ queue))
        else 0 := flatAdj_count tasks hN adj hadj queue hQnodup
  have hLmem : ∀ k ∈ queue.flatMap (fun c => adj.getD c []), k ∈ tasks.map TaskSpec.id := by
    intro k hk
    rw [List.mem_flatMap] at hk
    obtain ⟨c, _, hk2⟩ := hk
    rw [hadj c] at hk2
    obtain ⟨t, ht, rfl, _⟩ := adjList_mem tasks c k hk2
    exact List.mem_map.mpr ⟨t, ht, rfl⟩
  -- key per-id counting identity for the split P / queue / rest
  have hsplitCnt : ∀ k ∈ tasks.map TaskSpec.id,
      (taskOf tasks k).dependencies.countP
          (fun d => decide (d ∉ layers.flatten.map TaskSpec.id))
        = (taskOf tasks k).dependencies.countP (fun d => decide (d ∈ queue))
          + (taskOf tasks k).dependencies.countP
              (fun d => decide (d ∉ layers.flatten.map TaskSpec.id ++ queue)) := by
    intro k _
    refine countP_split _ _ _ _ ?_
    intro d _
    simp only [decide_eq_true_eq, List.mem_append, not_or]
    constructor
    · constructor
      · intro hdP
        by_cases hdq : d ∈ queue
        · exact Or.inl hdq
        · exact Or.inr ⟨hdP, hdq⟩
      · rintro (hdq | ⟨hdP, _⟩)
        · exact fun hdP => hdisj d hdP hdq
        · exact hdP
    · rintro ⟨hdq, _, hdq2⟩
      exact hdq2 hdq
  have hle : ∀ k, ((queue.flatMap (fun c => adj.getD c [])).count k : Int)
      ≤ (indeg, ([] : List String)).1.getD k 0 := by
    intro k
    rw [hLcount k]
    by_cases hk : k ∈ tasks.map TaskSpec.id
    · rw [if_pos hk]
      have h1 := hindeg k hk
      have h2 := hsplitCnt k hk
      simp only at h1 ⊢
      omega
    · rw [if_neg hk]
      have h1 := hindout k hk
      simp only at h1 ⊢
      omega
  obtain ⟨hind', hacc⟩ :=
    decFold_char (queue.flatMap (fun c => adj.getD c [])) (indeg, []) hle
  rw [← processCurrent_eq_flat adj queue indeg] at hind' hacc
  simp only [List.count_nil, Nat.zero_add] at hacc
  have hnextmem : ∀ k, k ∈ (processCurrent adj queue indeg).2
      ↔ (indeg.getD k 0 = ((queue.flatMap (fun c => adj.getD c [])).count k : Int)
          ∧ k ∈ queue.flatMap (fun c => adj.getD c [])) := by
    intro k
    rw [← List.count_pos_iff, hacc k]
    by_cases hcond : indeg.getD k 0
        = ((queue.flatMap (fun c => adj.getD c [])).count k : Int)
        ∧ k ∈ queue.flatMap (fun c => adj.getD c [])
    · rw [if_pos hcond]
      exact ⟨fun _ => hcond, fun _ => Nat.one_pos⟩
    · rw [if_neg hcond]
      exact ⟨fun h => absurd h (lt_irrefl 0), fun h => absurd h hcond⟩
  have hnextnodup : (processCurrent adj queue indeg).2.Nodup := by
    rw [List.nodup_iff_count_le_one]
    intro k
    rw [hacc k]
    split_ifs <;> omega
  have hlayerids : ((queue.map (taskOf tasks)).map TaskSpec.id) = queue := by
    rw [List.map_map]
    have : ∀ q ∈ queue, (TaskSpec.id ∘ taskOf tasks) q = id q := by
      intro q hq
      exact (taskOf_id tasks hN q (hQsub q hq)).1
    rw [List.map_congr_left this, List.map_id]
  have hPQ : (layers ++ [queue.map (taskOf tasks)]).flatten.map TaskSpec.id
      = layers.flatten.map TaskSpec.id ++ queue := by
    rw [List.flatten_append, List.flatten_cons, List.flatten_nil, List.append_nil,
      List.map_append, hlayerids]
  have hflat' : (layers ++ [queue.map (taskOf tasks)]).flatten
      = layers.flatten ++ queue.map (taskOf tasks) := by
    rw [List.flatten_append, List.flatten_cons, List.flatten_nil, List.append_nil]
  -- a queued or emitted id receives no decrement and cannot re-enter
  have hPQnoL : ∀ k ∈ layers.flatten.map TaskSpec.id ++ queue,
      k ∉ queue.flatMap (fun c => adj.getD c []) := by
    intro k hk hkL
    have hkids : k ∈ tasks.map TaskSpec.id := hsubids k hk
    have hdeps : ∀ d ∈ (taskOf tasks k).dependencies,
        d ∈ layers.flatten.map TaskSpec.id := by
      rcases List.mem_append.mp hk with h1 | h1
      · obtain ⟨t, ht, rfl⟩ := List.mem_map.mp h1
        obtain ⟨htm, hto⟩ := hemit t ht
        rw [hto]
        exact hclosed t ht
      · exact hready k h1
    have hcnt0 : (taskOf tasks k).dependencies.countP (fun d => decide (d ∈ queue)) = 0 := by
      rw [List.countP_eq_zero]
      intro d hd
      simp only [decide_eq_true_eq]
      exact hdisj d (hdeps d hd)
    have : (queue.flatMap (fun c => adj.getD c [])).count k = 0 := by
      rw [hLcount k, if_pos hkids, hcnt0]
    exact absurd (List.count_pos_iff.mpr hkL) (by omega)
  have hnextfresh : ∀ k ∈ (processCurrent adj queue indeg).2,
      k ∉ layers.flatten.map TaskSpec.id ++ queue := by
    intro k hk hmem
    exact hPQnoL k hmem ((hnextmem k).mp hk).2
  refine ⟨?_, ?_, ?_, ?_, ?_, ?_, ?_, ?_, ?_, ?_⟩
  · -- nodup
    rw [hPQ]
    refine List.Nodup.append hnodup hnextnodup ?_
    intro x hx
    exact fun hx2 => hnextfresh x hx2 hx
  · -- subids
    intro x hx
    rw [hPQ] at hx
    rcases List.mem_append.mp hx with h1 | h1
    · exact hsubids x h1
    · exact hLmem x ((hnextmem x).mp h1).2
  · -- procEq
    rw [hflat', List.length_append, List.length_map, hproc]
  · -- emitted
    intro t ht
    rw [hflat'] at ht
    rcases List.mem_append.mp ht with h1 | h1
    · exact hemit t h1
    · obtain ⟨q, hq, rfl⟩ := List.mem_map.mp h1
      obtain ⟨hid, hmem⟩ := taskOf_id tasks hN q (hQsub q hq)
      exact ⟨hmem, by rw [hid]⟩
  · -- indegVal
    intro k hk
    rw [hind' k, hPQ]
    have h1 := hindeg k hk
    have h2 := hsplitCnt k hk
    rw [hLcount k, if_pos hk]
    simp only at h1 ⊢
    omega
  · -- indegOut
    intro k hk
    rw [hind' k, hLcount k, if_neg hk, hindout k hk]
    rfl
  · -- queueReady
    intro q hq d hd
    rw [hPQ]
    have hqL := (hnextmem q).mp hq
    have hqids : q ∈ tasks.map TaskSpec.id := hLmem q hqL.2
    have h1 := hindeg q hqids
    have h2 := hsplitCnt q hqids
    have hLq := hLcount q
    rw [if_pos hqids] at hLq
    have hrest0 : (taskOf tasks q).dependencies.countP
        (fun d => decide (d ∉ layers.flatten.map TaskSpec.id ++ queue)) = 0 := by
      have := hqL.1
      rw [hLq] at this
      omega
    rw [List.countP_eq_zero] at hrest0
    have := hrest0 d hd
    simp only [decide_eq_true_eq, not_not] at this
    exact this
  · -- emittedClosed
    intro t ht d hd
    rw [hflat'] at ht
    rw [hPQ]
    rcases List.mem_append.mp ht with h1 | h1
    · exact List.mem_append_left _ (hclosed t h1 d hd)
    · obtain ⟨q, hq, rfl⟩ := List.mem_map.mp h1
      exact List.mem_append_left _ (hready q hq d hd)
  · -- remainPos
    intro k hk hknot h0
    rw [hPQ] at hknot
    have hknotPQ : k ∉ layers.flatten.map TaskSpec.id ++ queue := by
      intro hmem
      exact hknot (List.mem_append_left _ hmem)
    have hknext : k ∉ (processCurrent adj queue indeg).2 := by
      intro hmem
      exact hknot (List.mem_append_right _ hmem)
    have hold : indeg.getD k 0 ≠ 0 := hpos k hk hknotPQ
    have hvals := hindeg k hk
    have hLk := hLcount k
    rw [if_pos hk] at hLk
    rw [hind' k] at h0
    simp only at h0
    have hkin : k ∈ queue.flatMap (fun c => adj.getD c []) := by
      rw [← List.count_pos_iff]
      omega
    exact hknext ((hnextmem k).mpr ⟨by omega, hkin⟩)
  · -- layerOrder
    intro k hk t ht d hd
    have hlen : (layers ++ [queue.map (taskOf tasks)]).length = layers.length + 1 := by
      rw [List.length_append]
      rfl
    by_cases hkold : k < layers.length
    · have hget : (layers ++ [queue.map (taskOf tasks)]).get ⟨k, hk⟩
          = layers.get ⟨k, hkold⟩ := List.get_append k hkold
      rw [hget] at ht
      obtain ⟨j, hj, hjk, u, hu, huid⟩ := horder k hkold t ht d hd
      have hj' : j < (layers ++ [queue.map (taskOf tasks)]).length := by
        rw [hlen]
        omega
      refine ⟨j, hj', hjk, u, ?_, huid⟩
      rw [List.get_append j hj]
      exact hu
    · -- the new layer
      have hkeq : k = layers.length := by
        rw [hlen] at hk
        omega
      have hget : (layers ++ [queue.map (taskOf tasks)]).get ⟨k, hk⟩
          = queue.map (taskOf tasks) := by
        subst hkeq
        rw [List.get_eq_getElem, List.getElem_append_right (Nat.le_refl _)]
        simp
      rw [hget] at ht
      obtain ⟨q, hq, rfl⟩ := List.mem_map.mp ht
      have hdP := hready q hq d hd
      obtain ⟨u, hu, huid⟩ := List.mem_map.mp hdP
      rw [List.mem_flatten] at hu
      obtain ⟨l, hl, hul⟩ := hu
      obtain ⟨⟨j, hjlt⟩, hget2⟩ := List.mem_iff_get.mp hl
      have hj' : j < (layers ++ [queue.map (taskOf tasks)]).length := by
        rw [hlen]
        omega
      refine ⟨j, hj', by omega, u, ?_, huid⟩
      rw [List.get_append j hjlt, hget2]
      exact hul

/-- With fuel covering the unprocessed tasks, the loop always reaches
an empty queue, so the fuel of `tasks.length` used by the embedding is
never exhausted mid-run. -/
theorem kahn_loop_post (tasks : List TaskSpec) (hN : (tasks.map TaskSpec.id).Nodup)
    (adj : SMap (List String)) (hadj : ∀ d, adj.getD d [] = adjList tasks d) :
    ∀ (fuel : Nat) (queue : List String) (indeg : SMap Int) (processed : Nat)
      (layers : List (List TaskSpec)),
    KahnInv tasks queue indeg processed layers →
    tasks.length ≤ fuel + processed →
    KahnInv tasks []
      (kahnLoop (idToTaskMap tasks) adj fuel queue indeg processed layers).2.1
      (kahnLoop (idToTaskMap tasks) adj fuel queue indeg processed layers).2.2
      (kahnLoop (idToTaskMap tasks) adj fuel queue indeg processed layers).1 := by
  intro fuel
  induction fuel with
  | zero =>
      intro queue indeg processed layers hInv hfuel
      have hPQlen : (layers.flatten.map TaskSpec.id ++ queue).length ≤ tasks.length := by
        have h1 := nodup_length_le _ (tasks.map TaskSpec.id) hInv.nodup hInv.subids
        rw [List.length_map] at h1
        exact h1
      have hqnil : queue = [] := by
        rw [List.length_append, List.length_map] at hPQlen
        have h2 := hInv.procEq
        have : queue.length = 0 := by omega
        exact List.length_eq_zero.mp this
      subst hqnil
      exact hInv
  | succ fuel ih =>
      intro queue indeg processed layers hInv hfuel
      cases queue with
      | nil => exact hInv
      | cons q0 qrest =>
          have hstep := kahn_step tasks hN adj hadj (q0 :: qrest) indeg processed layers hInv
          have hfuel' : tasks.length ≤ fuel + (processed + (q0 :: qrest).length) := by
        -- one more task is processed, one unit of fuel is consumed
            rw [List.length_cons]
            omega
          have hrec := ih (processCurrent adj (q0 :: qrest) indeg).2
            (processCurrent adj (q0 :: qrest) indeg).1
            (processed + (q0 :: qrest).length)
            (layers ++ [(q0 :: qrest).map (taskOf tasks)]) hstep hfuel'
          exact hrec

theorem taskId_inj (tasks : List TaskSpec) (hN : (tasks.map TaskSpec.id).Nodup)
    (t u : TaskSpec) (ht : t ∈ tasks) (hu : u ∈ tasks) (h : t.id = u.id) : t = u := by
  have h1 := taskOf_mem tasks hN t ht
  have h2 := taskOf_mem tasks hN u hu
  rw [← h1, ← h2, h]

/-- A nonempty set of ids, each of which has a dependency inside the
set, contains a dependency cycle (pigeonhole on the backward walk). -/
theorem cycle_of_stuck (tasks : List TaskSpec) (R : List String) (hne : R ≠ [])
    (hstep : ∀ r ∈ R, ∃ d ∈ R, DepRel tasks d r) : HasCycle tasks := by
  choose f hf1 hf2 using hstep
  obtain ⟨r0, hr0⟩ : ∃ r, r ∈ R := by
    cases R with
    | nil => exact absurd rfl hne
    | cons a l => exact ⟨a, List.mem_cons_self _ _⟩
  let g : Nat → {x : String // x ∈ R} := fun n =>
    Nat.rec (⟨r0, hr0⟩ : {x : String // x ∈ R})
      (fun _ p => ⟨f p.1 p.2, hf1 p.1 p.2⟩) n
  have hgstep : ∀ n, DepRel tasks (g (n + 1)).1 (g n).1 := by
    intro n
    exact hf2 (g n).1 (g n).2
  have hchain : ∀ i j, i < j → Relation.TransGen (DepRel tasks) (g j).1 (g i).1 := by
    intro i j hij
    induction j with
    | zero => omega
    | succ j ihj =>
        rcases Nat.lt_succ_iff_lt_or_eq.mp hij with h1 | h1
        · exact Relation.TransGen.head (hgstep j) (ihj h1)
        · subst h1
          exact Relation.TransGen.single (hgstep i)
  have hmaps : ∀ n ∈ Finset.range (R.length + 1), (g n).1 ∈ R.toFinset :=
    fun n _ => List.mem_toFinset.mpr (g n).2
  have hcard : R.toFinset.card < (Finset.range (R.length + 1)).card := by
    rw [Finset.card_range]
    have := List.toFinset_card_le R
    omega
  obtain ⟨i, _, j, _, hij, heq⟩ :=
    Finset.exists_ne_map_eq_of_card_lt_of_maps_to hcard hmaps
  rcases Nat.lt_or_ge i j with h | h
  · refine ⟨(g i).1, ?_⟩
    have hc := hchain i j h
    rw [← heq] at hc
    exact hc
  · have hj : j < i := by omega
    refine ⟨(g j).1, ?_⟩
    have hc := hchain j i hj
    rw [heq] at hc
    exact hc

/-- A layered output in which every dependency of an emitted task sits in
a strictly earlier layer, covering every task id, refutes any dependency
cycle: along a `TransGen` chain the layer index strictly decreases. -/
theorem layers_no_cycle (tasks : List TaskSpec) (hN : (tasks.map TaskSpec.id).Nodup)
    (layers : List (List TaskSpec))
    (hnodup : (layers.flatten.map TaskSpec.id).Nodup)
    (hemit : ∀ t ∈ layers.flatten, t ∈ tasks)
    (hcover : ∀ x ∈ tasks.map TaskSpec.id, x ∈ layers.flatten.map TaskSpec.id)
    (horder : ∀ k, (hk : k < layers.length) → ∀ t ∈ layers.get ⟨k, hk⟩,
      ∀ d ∈ t.dependencies, ∃ j, ∃ hj : j < layers.length, j < k
        ∧ ∃ u ∈ layers.get ⟨j, hj⟩, u.id = d) :
    ¬ HasCycle tasks := by
  have hstep : ∀ a b, DepRel tasks a b → ∀ j, ∀ hj : j < layers.length,
      ∀ v ∈ layers.get ⟨j, hj⟩, v.id = b →
      ∃ i, ∃ hi : i < layers.length, i < j
        ∧ ∃ u ∈ layers.get ⟨i, hi⟩, u.id = a := by
    rintro a b ⟨t, htmem, htid, hadep⟩ j hj v hv hvb
    have hvfl : v ∈ layers.flatten :=
      List.mem_flatten.mpr ⟨layers.get ⟨j, hj⟩, List.get_mem _ _ _, hv⟩
    have hvt : v ∈ tasks := hemit v hvfl
    have htv : t = v := taskId_inj tasks hN t v htmem hvt (by rw [htid, hvb])
    rw [htv] at hadep
    exact horder j hj v hv a hadep
  have hdesc : ∀ a b, Relation.TransGen (DepRel tasks) a b →
      ∀ j, ∀ hj : j < layers.length, ∀ v ∈ layers.get ⟨j, hj⟩, v.id = b →
      ∃ i, ∃ hi : i < layers.length, i < j
        ∧ ∃ u ∈ layers.get ⟨i, hi⟩, u.id = a := by
    intro a b htg
    induction htg with
    | single h => exact hstep _ _ h
    | tail h1 h2 ih =>
        intro j hj v hv hvc
        obtain ⟨i1, hi1, hlt1, u1, hu1, hu1id⟩ := hstep _ _ h2 j hj v hv hvc
        obtain ⟨i0, hi0, hlt0, u0, hu0, hu0id⟩ := ih i1 hi1 u1 hu1 hu1id
        exact ⟨i0, hi0, by omega, u0, hu0, hu0id⟩
  rintro ⟨x, hx⟩
  have hxid : x ∈ tasks.map TaskSpec.id := by
    cases hx with
    | single h =>
        obtain ⟨t, ht, htid, _⟩ := h
        exact List.mem_map.mpr ⟨t, ht, htid⟩
    | tail h1 h2 =>
        obtain ⟨t, ht, htid, _⟩ := h2
        exact List.mem_map.mpr ⟨t, ht, htid⟩
  obtain ⟨v, hvfl, hvid⟩ := List.mem_map.mp (hcover x hxid)
  obtain ⟨l, hl, hvl⟩ := List.mem_flatten.mp hvfl
  obtain ⟨⟨j, hj⟩, hlget⟩ := List.mem_iff_get.mp hl
  have hvj : v ∈ layers.get ⟨j, hj⟩ := by rw [hlget]; exact hvl
  obtain ⟨i, hi, hlt, u, hu, huid⟩ := hdesc x x hx j hj v hvj hvid
  have := mem_layer_unique layers hnodup i j hi hj u hu v hvj (by rw [huid, hvid])
  omega

/-- When the Kahn loop ends with an empty queue but not all tasks
processed, the unprocessed ids each retain an unprocessed dependency,
which yields a cycle. -/
theorem cycle_of_incomplete (tasks : List TaskSpec) (hN : (tasks.map TaskSpec.id).Nodup)
    (hK : ∀ t ∈ tasks, ∀ d ∈ t.dependencies, d ∈ tasks.map TaskSpec.id)
    (indeg : SMap Int) (processed : Nat) (layers : List (List TaskSpec))
    (hInv : KahnInv tasks [] indeg processed layers)
    (hne : processed ≠ tasks.length) : HasCycle tasks := by
  have hPnodup : (layers.flatten.map TaskSpec.id).Nodup := by
    have := hInv.nodup
    rwa [List.append_nil] at this
  have hPsub : ∀ x ∈ layers.flatten.map TaskSpec.id, x ∈ tasks.map TaskSpec.id := by
    intro x hx
    exact hInv.subids x (by rwa [List.append_nil])
  have hPlen : (layers.flatten.map TaskSpec.id).length < tasks.length := by
    have h1 := nodup_length_le _ (tasks.map TaskSpec.id) hPnodup hPsub
    rw [List.length_map, List.length_map] at h1
    have h2 := hInv.procEq
    rw [List.length_map]
    omega
  have hne' : (tasks.map TaskSpec.id).filter
      (fun x => decide (x ∉ layers.flatten.map TaskSpec.id)) ≠ [] := by
    intro hnil
    have hall : ∀ x ∈ tasks.map TaskSpec.id, x ∈ layers.flatten.map TaskSpec.id := by
      intro x hx
      have := List.filter_eq_nil_iff.mp hnil x hx
      simpa using this
    have hle := nodup_length_le (tasks.map TaskSpec.id) _ hN hall
    rw [List.length_map] at hle
    omega
  refine cycle_of_stuck tasks _ hne' ?_
  intro r hr
  rw [List.mem_filter] at hr
  obtain ⟨hrid, hrP⟩ := hr
  have hrP' : r ∉ layers.flatten.map TaskSpec.id := by simpa using hrP
  have hpos := hInv.remainPos r hrid (by rwa [List.append_nil])
  have hval := hInv.indegVal r hrid
  rw [hval] at hpos
  have hcpos : 0 < (taskOf tasks r).dependencies.countP
      (fun d => decide (d ∉ layers.flatten.map TaskSpec.id)) := by
    by_contra hc
    have : (taskOf tasks r).dependencies.countP
        (fun d => decide (d ∉ layers.flatten.map TaskSpec.id)) = 0 := by omega
    rw [this] at hpos
    exact hpos rfl
  obtain ⟨d, hd, hdP⟩ := List.countP_pos.mp hcpos
  obtain ⟨hrid', hrmem⟩ := taskOf_id tasks hN r hrid
  refine ⟨d, ?_, taskOf tasks r, hrmem, hrid', hd⟩
  rw [List.mem_filter]
  exact ⟨hK (taskOf tasks r) hrmem d hd, hdP⟩

/-- The message component after one line: a qualifying `agent_message`
overwrites it, everything else leaves it unchanged. -/
theorem processLine_fst (st : String × String) (l : StreamLine) :
    (processLine st l).1 = (agentMessageText l).getD st.1 := by
  cases l with
  | blank => rfl
  | malformed => rfl
  | event e =>
      simp only [processLine, processEvent, agentMessageText]
      by_cases h1 : e.type = "thread.started"
      · have h2 : e.type ≠ "item.completed" := by rw [h1]; decide
        simp [h1, h2]
      · by_cases h2 : e.type = "item.completed"
        · simp only [if_neg h1, if_pos h2]
          cases e.item with
          | none => simp
          | some it =>
              by_cases hc : it.type = "agent_message" ∧ normalizeText it.text ≠ ""
              · simp [hc]
              · simp [hc]
        · simp [h1, h2]

/-- The thread component after one line: any `thread.started`
overwrites it (with whatever `thread_id` it carries, possibly empty),
everything else leaves it unchanged. -/
theorem processLine_snd (st : String × String) (l : StreamLine) :
    (processLine st l).2 = (threadStartedId l).getD st.2 := by
  cases l with
  | blank => rfl
  | malformed => rfl
  | event e =>
      simp only [processLine, processEvent, threadStartedId]
      by_cases h1 : e.type = "thread.started"
      · simp [h1]
      · by_cases h2 : e.type = "item.completed"
        · simp only [if_neg h1, if_pos h2]
          cases e.item with
          | none => simp [h1]
          | some it =>
              by_cases hc : it.type = "agent_message" ∧ normalizeText it.text ≠ ""
              · simp [hc, h1]
              · simp [hc, h1]
        · simp [h1, h2]

theorem parseFold_fst (lines : List StreamLine) (st : String × String) :
    (lines.foldl processLine st).1 = (lines.filterMap agentMessageText).getLastD st.1 := by
  induction lines generalizing st with
  | nil => rfl
  | cons l ls ih =>
      rw [List.foldl_cons, ih]
      cases h : agentMessageText l with
      | none => simp only [List.filterMap_cons, h, processLine_fst, Option.getD_none]
      | some m =>
          simp only [List.filterMap_cons, h, processLine_fst, Option.getD_some]
          rw [List.getLastD_cons]

theorem parseFold_snd (lines : List StreamLine) (st : String × String) :
    (lines.foldl processLine st).2 = (lines.filterMap threadStartedId).getLastD st.2 := by
  induction lines generalizing st with
  | nil => rfl
  | cons l ls ih =>
      rw [List.foldl_cons, ih]
      cases h : threadStartedId l with
      | none => simp only [List.filterMap_cons, h, processLine_snd, Option.getD_none]
      | some m =>
          simp only [List.filterMap_cons, h, processLine_snd, Option.getD_some]
          rw [List.getLastD_cons]

/-! ### List suffix lemmas for the tail buffer -/

theorem drop_append_general {α : Type} (a b : List α) (k : Nat) :
    (a ++ b).drop k = a.drop k ++ b.drop (k - a.length) := by
  induction a generalizing k with
  | nil => simp
  | cons x xs ih =>
      cases k with
      | zero => simp
      | succ n => simpa using ih n

theorem write_limit (b : TailBuffer) (p : List UInt8) :
    (b.write p).1.limit = b.limit := by
  unfold TailBuffer.write
  split
  · rfl
  · split
    · rfl
    · split
      · rfl
      · rfl

theorem write_reports (b : TailBuffer) (p : List UInt8) :
    (b.write p).2.1 = p.length ∧ (b.write p).2.2 = none := by
  unfold TailBuffer.write
  split
  · exact ⟨rfl, rfl⟩
  · split
    · exact ⟨rfl, rfl⟩
    · split
      · exact ⟨rfl, rfl⟩
      · exact ⟨rfl, rfl⟩

/-- One `Write` preserves the rolling-suffix invariant: if the stored
data is the last `L` bytes of everything written so far, it still is
afterwards. -/
theorem write_lastN (L : Int) (hL : 0 < L) (acc p : List UInt8) :
    (TailBuffer.write ⟨L, lastN L.toNat acc⟩ p).1.data = lastN L.toNat (acc ++ p) := by
  have hLn : (L.toNat : Int) = L := Int.toNat_of_nonneg (le_of_lt hL)
  have h1 : ¬ (L ≤ 0) := not_le.mpr hL
  have hm : (lastN L.toNat acc).length = acc.length - (acc.length - L.toNat) := by
    simp [lastN]
  unfold TailBuffer.write
  rw [if_neg h1]
  by_cases h2 : L ≤ (p.length : Int)
  · rw [if_pos h2]
    have hple : L.toNat ≤ p.length := by omega
    simp only [lastN, List.length_append]
    rw [drop_append_general]
    have hdropa : acc.drop (acc.length + p.length - L.toNat) = [] :=
      List.drop_eq_nil_of_le (by omega)
    have harith : acc.length + p.length - L.toNat - acc.length = p.length - L.toNat := by
      omega
    rw [hdropa, harith]
    simp
  · rw [if_neg h2]
    have hplt : p.length < L.toNat := by omega
    by_cases h3 : (((lastN L.toNat acc).length + p.length : Nat) : Int) ≤ L
    · rw [if_pos h3]
      have h3' : (lastN L.toNat acc).length + p.length ≤ L.toNat := by omega
      simp only [lastN, List.length_append]
      rw [drop_append_general]
      by_cases hacc : acc.length ≤ L.toNat
      · have hK : acc.length + p.length - L.toNat = 0 := by omega
        have h0 : acc.length - L.toNat = 0 := by omega
        rw [hK, h0]
        simp
      · have hp0 : p.length = 0 := by omega
        have hp : p = [] := List.length_eq_zero.mp hp0
        subst hp
        simp
    · rw [if_neg h3]
      simp only [lastN, List.length_append]
      rw [List.drop_drop, drop_append_general]
      have hK0 : acc.length + p.length - L.toNat - acc.length = 0 := by omega
      have harith : acc.length - L.toNat
            + ((List.drop (acc.length - L.toNat) acc).length + p.length - L.toNat)
          = acc.length + p.length - L.toNat := by
        simp only [List.length_drop]
        omega
      rw [hK0]
      rw [harith]
      simp

theorem writeAll_data (L : Int) (hL : 0 < L) (ps : List (List UInt8)) :
    (TailBuffer.writeAll L ps).data = lastN L.toNat ps.flatten := by
  suffices h : ∀ (qs : List (List UInt8)) (acc : List UInt8),
      (qs.foldl (fun (b : TailBuffer) (p : List UInt8) => (b.write p).1)
          ⟨L, lastN L.toNat acc⟩).data
        = lastN L.toNat (acc ++ qs.flatten) by
    have h0 := h ps []
    simpa [TailBuffer.writeAll, lastN] using h0
  intro qs
  induction qs with
  | nil => intro acc; simp [lastN]
  | cons p rest ih =>
      intro acc
      rw [List.foldl_cons]
      have hbuf : (TailBuffer.write ⟨L, lastN L.toNat acc⟩ p).1
          = (⟨L, lastN L.toNat (acc ++ p)⟩ : TailBuffer) := by
        have hd := write_lastN L hL acc p
        have hl := write_limit ⟨L, lastN L.toNat acc⟩ p
        cases hb : (TailBuffer.write ⟨L, lastN L.toNat acc⟩ p).1 with
        | mk lim dat =>
            rw [hb] at hd hl
            simp only at hd hl
            simp [hd, hl]
      rw [hbuf, ih (acc ++ p)]
      simp

/-! ### C10: `tailBuffer.Write` -/

/-- C10.  With a positive limit `L`, every `Write` reports the full
input length with a nil error, and after any sequence of writes the
stored data is exactly the last `min(L, total)` bytes of the
concatenation of all inputs — in particular never more than `L`
bytes. -/
theorem tailBuffer_spec (L : Int) (hL : 0 < L) (ps : List (List UInt8)) :
    (∀ (b : TailBuffer) (p : List UInt8),
        (b.write p).2.1 = p.length ∧ (b.write p).2.2 = none)
    ∧ (TailBuffer.writeAll L ps).data
        = ps.flatten.drop (ps.flatten.length - min L.toNat ps.flatten.length)
    ∧ ((TailBuffer.writeAll L ps).data.length : Int) ≤ L := by
  have hLn : (L.toNat : Int) = L := Int.toNat_of_nonneg (le_of_lt hL)
  have hwd := writeAll_data L hL ps
  refine ⟨write_reports, ?_, ?_⟩
  · rw [hwd]
    have h : ps.flatten.length - min L.toNat ps.flatten.length
        = ps.flatten.length - L.toNat := by omega
    rw [h]
    rfl
  · rw [hwd]
    simp only [lastN, List.length_drop]
    omega

/-- C10 (witness): the theorem at `L = 4` and two concrete writes. -/
theorem tailBuffer_spec_witness :
    ((TailBuffer.writeAll 4 [[1, 2, 3], [4, 5]]).data.length : Int) ≤ 4 :=
  (tailBuffer_spec 4 (by decide) [[1, 2, 3], [4, 5]]).2.2

/-! ### C7: message extraction from the event stream -/

/-- C7.  The message returned by `parseJSONStreamWithLog` is the
normalised text of the last `item.completed` event whose item type is
`agent_message` and whose normalised text is non-empty (or `""` when
there is none); normalisation takes a JSON string verbatim,
concatenates the string elements of a JSON array in order (non-strings
ignored) and yields `""` for any other shape; events with empty
normalised text never overwrite an earlier message. -/
theorem parseJSONStream_message_spec :
    (∀ lines, (parseJSONStream lines).1 = (lines.filterMap agentMessageText).getLastD "")
    ∧ (∀ s, normalizeText (.str s) = s)
    ∧ (∀ xs, normalizeText (.arr xs) = concatStrings (xs.filterMap JsonText.asString))
    ∧ normalizeText .other = "" := by
  refine ⟨fun lines => parseFold_fst lines ("", ""), fun s => rfl, ?_, rfl⟩
  intro xs
  suffices h : ∀ (ys : List JsonText) (acc : String),
      ys.foldl (fun sb item => match item with | .str s => sb ++ s | _ => sb) acc
        = (ys.filterMap JsonText.asString).foldl (fun a b => a ++ b) acc by
    exact h xs ""
  intro ys
  induction ys with
  | nil => intro acc; rfl
  | cons x rest ih =>
      intro acc
      cases x with
      | str s => simp only [List.foldl_cons, List.filterMap_cons, JsonText.asString, ih]
      | arr elems => simp only [List.foldl_cons, List.filterMap_cons, JsonText.asString, ih]
      | other => simp only [List.foldl_cons, List.filterMap_cons, JsonText.asString, ih]

/-! ### C8: thread id extraction from the event stream -/

/-- C8 (counterexample).  The claim states that a `thread.started`
event without a `thread_id` does not clear a previously recorded id.
In the code `threadID = event.ThreadID` is unconditional, and a missing
`thread_id` field unmarshals to `""`, so a later bare `thread.started`
resets the recorded id to empty: on the stream
`thread.started(t1); thread.started()` the claim predicts `"t1"` but
the code returns `""`. -/
theorem parseJSONStream_thread_counterexample :
    (parseJSONStream [.event ⟨"thread.started", "t1", none⟩,
        .event ⟨"thread.started", "", none⟩]).2 = ""
    ∧ ("" : String) ≠ "t1" := by
  exact ⟨rfl, by decide⟩

/-- C8 (amended).  The thread id returned by `parseJSONStreamWithLog`
is the `thread_id` field of the last `thread.started` event — whatever
it carries, the empty string included — so a `thread.started` without a
`thread_id` resets the recorded id to empty. -/
theorem parseJSONStream_thread_spec (lines : List StreamLine) :
    (parseJSONStream lines).2 = (lines.filterMap threadStartedId).getLastD "" :=
  parseFold_snd lines ("", "")

/-! ### Executor counting lemmas -/

theorem runCodexTaskFn_taskID (O : RunOracle) (t : TaskSpec) :
    (runCodexTaskFn O t).taskID = t.id := rfl

theorem scanStep_counts (acc : LayerScan) (task : TaskSpec) :
    ((scanStep acc task).results.length + (scanStep acc task).toRun.length
      = acc.results.length + acc.toRun.length + 1)
    ∧ ∀ x, ((scanStep acc task).results.map TaskResult.taskID).count x
          + ((scanStep acc task).toRun.map TaskSpec.id).count x
        = (acc.results.map TaskResult.taskID).count x
          + (acc.toRun.map TaskSpec.id).count x
          + (if task.id = x then 1 else 0) := by
  have hcnt : ∀ x, List.count x [task.id] = if task.id = x then 1 else 0 := by
    intro x
    by_cases hx : task.id = x
    · simp [hx]
    · rw [if_neg hx, List.count_eq_zero]
      simp only [List.mem_singleton]
      exact fun hh => hx hh.symm
  obtain ⟨rs, tr, fl⟩ := acc
  unfold scanStep
  by_cases h : (shouldSkipTask task fl).1 = true
  · rw [if_pos h]
    refine ⟨?_, ?_⟩
    · simp
      omega
    · intro x
      simp [hcnt, List.count_append]
      omega
  · rw [if_neg h]
    refine ⟨?_, ?_⟩
    · simp
      omega
    · intro x
      simp [hcnt, List.count_append]
      omega

theorem scan_counts (layer : List TaskSpec) (acc : LayerScan) :
    ((layer.foldl scanStep acc).results.length + (layer.foldl scanStep acc).toRun.length
      = acc.results.length + acc.toRun.length + layer.length)
    ∧ ∀ x, ((layer.foldl scanStep acc).results.map TaskResult.taskID).count x
          + ((layer.foldl scanStep acc).toRun.map TaskSpec.id).count x
        = (acc.results.map TaskResult.taskID).count x
          + (acc.toRun.map TaskSpec.id).count x
          + (layer.map TaskSpec.id).count x := by
  induction layer generalizing acc with
  | nil => simp
  | cons task rest ih =>
      rw [List.foldl_cons]
      obtain ⟨ha, hb⟩ := scanStep_counts acc task
      obtain ⟨hc, hd⟩ := ih (scanStep acc task)
      constructor
      · rw [hc, ha]
        simp
        omega
      · intro x
        rw [hd x, hb x]
        simp only [List.map_cons, List.count_cons]
        by_cases hx : task.id = x
        · simp [hx]
          omega
        · have : ¬ (x = task.id) := fun hh => hx hh.symm
          simp [hx, this]

theorem exec_counts (O : RunOracle) (SH : Nat → List TaskResult → List TaskResult)
    (hSH : ∀ i l, List.Perm (SH i l) l) :
    ∀ (layers : List (List TaskSpec)) (idx : Nat) (st : ExecState),
    ((execLayers O SH layers idx st).results.length
      = st.results.length + layers.flatten.length)
    ∧ ∀ x, ((execLayers O SH layers idx st).results.map TaskResult.taskID).count x
        = (st.results.map TaskResult.taskID).count x
          + (layers.flatten.map TaskSpec.id).count x := by
  intro layers
  induction layers with
  | nil => intro idx st; simp [execLayers]
  | cons layer rest ih =>
      intro idx st
      have hperm : (SH idx ((scanLayer st.failed layer).toRun.map (runCodexTaskFn O))).Perm
          ((scanLayer st.failed layer).toRun.map (runCodexTaskFn O)) := hSH _ _
      have harrlen : (SH idx ((scanLayer st.failed layer).toRun.map (runCodexTaskFn O))).length
          = (scanLayer st.failed layer).toRun.length := by
        rw [hperm.length_eq, List.length_map]
      have harrcnt : ∀ x,
          ((SH idx ((scanLayer st.failed layer).toRun.map (runCodexTaskFn O))).map
              TaskResult.taskID).count x
            = ((scanLayer st.failed layer).toRun.map TaskSpec.id).count x := by
        intro x
        rw [(hperm.map TaskResult.taskID).count_eq, List.map_map]
        rfl
      obtain ⟨hs1, hs2⟩ := scan_counts layer ⟨[], [], st.failed⟩
      obtain ⟨hi1, hi2⟩ := ih (idx + 1)
        ⟨st.results ++ (scanLayer st.failed layer).results
            ++ SH idx ((scanLayer st.failed layer).toRun.map (runCodexTaskFn O)),
          st.launched ++ (scanLayer st.failed layer).toRun,
          registerFailures (scanLayer st.failed layer).failed
            (SH idx ((scanLayer st.failed layer).toRun.map (runCodexTaskFn O)))⟩
      simp only [scanLayer] at hs1 hs2 harrlen harrcnt hi1 hi2
      constructor
      · show (execLayers O SH (layer :: rest) idx st).results.length = _
        rw [execLayers]
        simp only [scanLayer] at *
        rw [hi1]
        simp only [List.length_append, List.flatten_cons]
        simp at hs1 ⊢
        omega
      · intro x
        show ((execLayers O SH (layer :: rest) idx st).results.map TaskResult.taskID).count x = _
        rw [execLayers]
        simp only [scanLayer] at *
        rw [hi2 x]
        have hs2x := hs2 x
        have harrcntx := harrcnt x
        simp only [List.map_append, List.count_append, List.flatten_cons,
          List.map_nil, List.count_nil] at hs2x harrcntx ⊢
        omega

/-! ### Executor skip-propagation lemmas -/

theorem scanStep_failed_mono (acc : LayerScan) (task : TaskSpec) (d : String)
    (h : acc.failed.containsKey d = true) :
    (scanStep acc task).failed.containsKey d = true := by
  unfold scanStep
  by_cases hs : (shouldSkipTask task acc.failed).1 = true
  · rw [if_pos hs]
    simp only [SMap.containsKey_set, h, Bool.or_true]
  · rw [if_neg hs]
    exact h

theorem scan_failed_mono (layer : List TaskSpec) (acc : LayerScan) (d : String)
    (h : acc.failed.containsKey d = true) :
    (layer.foldl scanStep acc).failed.containsKey d = true := by
  induction layer generalizing acc with
  | nil => exact h
  | cons t rest ih => exact ih (scanStep acc t) (scanStep_failed_mono acc t d h)

theorem reg_failed_mono (rs : List TaskResult) (f : SMap TaskResult) (d : String)
    (h : f.containsKey d = true) :
    (rs.foldl regStep f).containsKey d = true := by
  induction rs generalizing f with
  | nil => exact h
  | cons r rest ih =>
      refine ih (regStep f r) ?_
      unfold regStep
      by_cases hr : r.failedRes = true
      · rw [if_pos hr]
        simp only [SMap.containsKey_set, h, Bool.or_true]
      · rw [if_neg hr]
        exact h

theorem scanStep_failed_frame (acc : LayerScan) (task : TaskSpec) (d : String)
    (hne : task.id ≠ d) :
    (scanStep acc task).failed.containsKey d = acc.failed.containsKey d := by
  unfold scanStep
  by_cases hs : (shouldSkipTask task acc.failed).1 = true
  · rw [if_pos hs]
    simp only [SMap.containsKey_set, hne, decide_eq_true_eq, false_or, Bool.false_or]
    simp [hne]
  · rw [if_neg hs]

theorem scan_results_mono (layer : List TaskSpec) (acc : LayerScan) (r : TaskResult)
    (h : r ∈ acc.results) : r ∈ (layer.foldl scanStep acc).results := by
  induction layer generalizing acc with
  | nil => exact h
  | cons t rest ih =>
      refine ih (scanStep acc t) ?_
      unfold scanStep
      by_cases hs : (shouldSkipTask t acc.failed).1 = true
      · rw [if_pos hs]
        exact List.mem_append_left _ h
      · rw [if_neg hs]
        exact h

theorem scan_toRun_sub (layer : List TaskSpec) (acc : LayerScan) (t : TaskSpec)
    (h : t ∈ (layer.foldl scanStep acc).toRun) : t ∈ acc.toRun ∨ t ∈ layer := by
  induction layer generalizing acc with
  | nil => exact Or.inl h
  | cons u rest ih =>
      rcases ih (scanStep acc u) h with h1 | h1
      · unfold scanStep at h1
        by_cases hs : (shouldSkipTask u acc.failed).1 = true
        · rw [if_pos hs] at h1
          exact Or.inl h1
        · rw [if_neg hs] at h1
          rcases List.mem_append.mp h1 with h2 | h2
          · exact Or.inl h2
          · simp only [List.mem_singleton] at h2
            subst h2
            exact Or.inr (List.mem_cons_self _ _)
      · exact Or.inr (List.mem_cons_of_mem _ h1)

/-- A task one of whose dependencies is already registered as failed
always takes the skip branch. -/
theorem shouldSkipTask_fires (B : TaskSpec) (f : SMap TaskResult)
    (hd : ∃ d ∈ B.dependencies, f.containsKey d = true) :
    (shouldSkipTask B f).1 = true
    ∧ (shouldSkipTask B f).2 = "skipped due to failed dependencies: "
        ++ String.intercalate "," (B.dependencies.filter (fun d => f.containsKey d)) := by
  obtain ⟨d, hdmem, hdf⟩ := hd
  have hdeps : B.dependencies ≠ [] := by
    intro h0
    rw [h0] at hdmem
    cases hdmem
  have hblocked : B.dependencies.filter (fun d => f.containsKey d) ≠ [] := by
    intro h0
    have : d ∈ B.dependencies.filter (fun d => f.containsKey d) :=
      List.mem_filter.mpr ⟨hdmem, hdf⟩
    rw [h0] at this
    cases this
  unfold shouldSkipTask
  rw [if_neg hdeps, if_neg hblocked]
  exact ⟨rfl, rfl⟩

/-- During the scan of a layer, once a dependency of `B` is registered
as failed, no occurrence of `B` is ever queued for launching. -/
theorem scan_avoids_B (layer : List TaskSpec) (acc : LayerScan) (B : TaskSpec)
    (hd : ∃ d ∈ B.dependencies, acc.failed.containsKey d = true)
    (hnr : B ∉ acc.toRun) :
    B ∉ (layer.foldl scanStep acc).toRun := by
  induction layer generalizing acc with
  | nil => exact hnr
  | cons t rest ih =>
      obtain ⟨d, hdmem, hdf⟩ := hd
      refine ih (scanStep acc t)
        ⟨d, hdmem, scanStep_failed_mono acc t d hdf⟩ ?_
      unfold scanStep
      by_cases hs : (shouldSkipTask t acc.failed).1 = true
      · rw [if_pos hs]
        exact hnr
      · rw [if_neg hs]
        intro hmem
        rcases List.mem_append.mp hmem with h1 | h1
        · exact hnr h1
        · simp only [List.mem_singleton] at h1
          -- then t = B, but its failed dependency forces the skip branch
          rw [← h1] at hs
          exact hs (shouldSkipTask_fires B acc.failed ⟨d, hdmem, hdf⟩).1

/-- The scan of a layer containing `B` records the synthesised skip
result for `B` whenever one of `B`'s dependencies is on record as
failed and `B`'s dependencies do not name tasks of this layer. -/
theorem scan_skips_B (layer : List TaskSpec) (acc : LayerScan) (B : TaskSpec)
    (hd : ∃ d ∈ B.dependencies, acc.failed.containsKey d = true)
    (hlayer : ∀ d ∈ B.dependencies, ∀ t ∈ layer, t.id ≠ d)
    (hB : B ∈ layer) :
    (⟨B.id, 1, "", "",
      "skipped due to failed dependencies: " ++ String.intercalate ","
        (B.dependencies.filter (fun d => acc.failed.containsKey d))⟩ : TaskResult)
      ∈ (layer.foldl scanStep acc).results := by
  induction layer generalizing acc with
  | nil => cases hB
  | cons t rest ih =>
      rw [List.foldl_cons]
      by_cases hEq : t = B
      · rw [hEq]
        obtain ⟨hfire, hmsg⟩ := shouldSkipTask_fires B acc.failed hd
        have hstep : (scanStep acc B).results = acc.results
            ++ [⟨B.id, 1, "", "", (shouldSkipTask B acc.failed).2⟩] := by
          unfold scanStep
          rw [if_pos hfire]
        refine scan_results_mono rest (scanStep acc B) _ ?_
        rw [hstep, hmsg]
        exact List.mem_append_right _ (List.mem_singleton.mpr rfl)
      · have hBrest : B ∈ rest := by
          rcases List.mem_cons.mp hB with h1 | h1
          · exact absurd h1.symm hEq
          · exact h1
        have hframe : ∀ d ∈ B.dependencies,
            (scanStep acc t).failed.containsKey d = acc.failed.containsKey d := by
          intro d hdm
          exact scanStep_failed_frame acc t d
            (hlayer d hdm t (List.mem_cons_self _ _))
        have hfilter : B.dependencies.filter (fun d => (scanStep acc t).failed.containsKey d)
            = B.dependencies.filter (fun d => acc.failed.containsKey d) := by
          refine List.filter_congr ?_
          intro d hdm
          rw [hframe d hdm]
        obtain ⟨d, hdmem, hdf⟩ := hd
        have := ih (scanStep acc t)
          ⟨d, hdmem, by rw [hframe d hdmem]; exact hdf⟩
          (fun d hdm u hu => hlayer d hdm u (List.mem_cons_of_mem _ hu))
          hBrest
        rwa [hfilter] at this

theorem exec_results_mono (O : RunOracle) (SH : Nat → List TaskResult → List TaskResult) :
    ∀ (ls : List (List TaskSpec)) (idx : Nat) (st : ExecState) (r : TaskResult),
    r ∈ st.results → r ∈ (execLayers O SH ls idx st).results := by
  intro ls
  induction ls with
  | nil => intro idx st r h; exact h
  | cons layer rest ih =>
      intro idx st r h
      simp only [execLayers]
      exact ih _ _ r (List.mem_append_left _ (List.mem_append_left _ h))

theorem exec_failed_mono (O : RunOracle) (SH : Nat → List TaskResult → List TaskResult) :
    ∀ (ls : List (List TaskSpec)) (idx : Nat) (st : ExecState) (d : String),
    st.failed.containsKey d = true →
    (execLayers O SH ls idx st).failed.containsKey d = true := by
  intro ls
  induction ls with
  | nil => intro idx st d h; exact h
  | cons layer rest ih =>
      intro idx st d h
      simp only [execLayers]
      refine ih _ _ d (reg_failed_mono _ _ d ?_)
      simp only [scanLayer]
      exact scan_failed_mono layer ⟨[], [], st.failed⟩ d h

theorem exec_launched_avoid (O : RunOracle) (SH : Nat → List TaskResult → List TaskResult) :
    ∀ (ls : List (List TaskSpec)) (idx : Nat) (st : ExecState) (B : TaskSpec),
    (∃ d ∈ B.dependencies, st.failed.containsKey d = true) →
    B ∉ st.launched → B ∉ (execLayers O SH ls idx st).launched := by
  intro ls
  induction ls with
  | nil => intro idx st B _ h; exact h
  | cons layer rest ih =>
      intro idx st B hd hnl
      obtain ⟨d, hdm, hdf⟩ := hd
      simp only [execLayers]
      refine ih _ _ B ⟨d, hdm, reg_failed_mono _ _ d ?_⟩ ?_
      · simp only [scanLayer]
        exact scan_failed_mono layer ⟨[], [], st.failed⟩ d hdf
      · intro hmem
        rcases List.mem_append.mp hmem with h1 | h1
        · exact hnl h1
        · simp only [scanLayer] at h1
          exact scan_avoids_B layer ⟨[], [], st.failed⟩ B
            ⟨d, hdm, hdf⟩ (by intro h0; cases h0) h1

theorem exec_launched_sub (O : RunOracle) (SH : Nat → List TaskResult → List TaskResult) :
    ∀ (ls : List (List TaskSpec)) (idx : Nat) (st : ExecState) (t : TaskSpec),
    t ∈ (execLayers O SH ls idx st).launched → t ∈ st.launched ∨ t ∈ ls.flatten := by
  intro ls
  induction ls with
  | nil => intro idx st t h; exact Or.inl h
  | cons layer rest ih =>
      intro idx st t h
      simp only [execLayers] at h
      rcases ih _ _ t h with h1 | h1
      · rcases List.mem_append.mp h1 with h2 | h2
        · exact Or.inl h2
        · simp only [scanLayer] at h2
          rcases scan_toRun_sub layer ⟨[], [], st.failed⟩ t h2 with h3 | h3
          · cases h3
          · exact Or.inr (by rw [List.flatten_cons]; exact List.mem_append.mpr (Or.inl h3))
      · exact Or.inr (by rw [List.flatten_cons]; exact List.mem_append.mpr (Or.inr h1))

/-- The drain loop keeps the `failed` map concordant with the list of
results emitted so far: a key is present iff some emitted result with
that id is failed. -/
theorem reg_concordant :
    ∀ (arr : List TaskResult) (f : SMap TaskResult) (rs : List TaskResult),
    (∀ id, f.containsKey id = true ↔ failedIn rs id = true) →
    ∀ id, (arr.foldl regStep f).containsKey id = true ↔ failedIn (rs ++ arr) id = true := by
  intro arr
  induction arr with
  | nil =>
      intro f rs h id
      simpa using h id
  | cons a rest ih =>
      intro f rs h id
      have hstep : ∀ id', (regStep f a).containsKey id' = true
          ↔ failedIn (rs ++ [a]) id' = true := by
        intro id'
        have hh := h id'
        unfold regStep
        by_cases ha : a.failedRes = true
        · rw [if_pos ha]
          simp only [SMap.containsKey_set, Bool.or_eq_true, decide_eq_true_eq, failedIn,
            List.any_append, List.any_cons, List.any_nil, Bool.or_false,
            Bool.and_eq_true, beq_iff_eq, ha, and_true] at hh ⊢
          tauto
        · rw [if_neg ha]
          have ha' : a.failedRes = false := by
            cases hab : a.failedRes
            · rfl
            · exact absurd hab ha
          simp only [failedIn, List.any_append, List.any_cons, List.any_nil,
            Bool.or_false, Bool.and_eq_true, Bool.or_eq_true, beq_iff_eq, ha',
            and_false, or_false] at hh ⊢
          tauto
      rw [List.foldl_cons]
      have hrest := ih (regStep f a) (rs ++ [a]) hstep id
      rwa [List.append_assoc, List.singleton_append] at hrest

theorem scanStep_concordant (acc : LayerScan) (task : TaskSpec) (base : List TaskResult)
    (h : ∀ id, acc.failed.containsKey id = true ↔ failedIn (base ++ acc.results) id = true) :
    ∀ id, (scanStep acc task).failed.containsKey id = true
      ↔ failedIn (base ++ (scanStep acc task).results) id = true := by
  intro id
  have hh := h id
  unfold scanStep
  by_cases hs : (shouldSkipTask task acc.failed).1 = true
  · rw [if_pos hs]
    have hres : (⟨task.id, 1, "", "",
        (shouldSkipTask task acc.failed).2⟩ : TaskResult).failedRes = true := rfl
    simp only [SMap.containsKey_set, Bool.or_eq_true, decide_eq_true_eq, failedIn,
      List.any_append, List.any_cons, List.any_nil, Bool.or_false,
      Bool.and_eq_true, beq_iff_eq, hres, and_true] at hh ⊢
    tauto
  · rw [if_neg hs]
    exact h id

theorem scan_concordant (layer : List TaskSpec) (acc : LayerScan) (base : List TaskResult)
    (h : ∀ id, acc.failed.containsKey id = true ↔ failedIn (base ++ acc.results) id = true) :
    ∀ id, (layer.foldl scanStep acc).failed.containsKey id = true
      ↔ failedIn (base ++ (layer.foldl scanStep acc).results) id = true := by
  induction layer generalizing acc with
  | nil => exact h
  | cons t rest ih =>
      rw [List.foldl_cons]
      exact ih (scanStep acc t) (scanStep_concordant acc t base h)

/-- Along the whole execution, the `failed` map holds exactly the ids
that have produced a failed result so far. -/
theorem exec_concordant (O : RunOracle) (SH : Nat → List TaskResult → List TaskResult) :
    ∀ (ls : List (List TaskSpec)) (idx : Nat) (st : ExecState),
    (∀ id, st.failed.containsKey id = true ↔ failedIn st.results id = true) →
    ∀ id, (execLayers O SH ls idx st).failed.containsKey id = true
        ↔ failedIn (execLayers O SH ls idx st).results id = true := by
  intro ls
  induction ls with
  | nil => intro idx st h id; exact h id
  | cons layer rest ih =>
      intro idx st h id
      simp only [execLayers]
      refine ih _ _ ?_ id
      intro id'
      have hscan := scan_concordant layer ⟨[], [], st.failed⟩ st.results
        (by intro id''; simpa using h id'')
      simp only [scanLayer, registerFailures]
      exact reg_concordant _ _ _ hscan id'

theorem exec_append (O : RunOracle) (SH : Nat → List TaskResult → List TaskResult) :
    ∀ (xs ys : List (List TaskSpec)) (idx : Nat) (st : ExecState),
    execLayers O SH (xs ++ ys) idx st
      = execLayers O SH ys (idx + xs.length) (execLayers O SH xs idx st) := by
  intro xs
  induction xs with
  | nil => intro ys idx st; simp [execLayers]
  | cons l rest ih =>
      intro ys idx st
      simp only [List.cons_append, execLayers]
      have harith : idx + 1 + rest.length = idx + (l :: rest).length := by
        simp only [List.length_cons]
        omega
      rw [← harith]
      exact ih ys (idx + 1) _

/-! ### C3: failed dependencies cause a skip, not a launch -/

/-- C3.  Let `B` be a task of layer `L` in a properly layered plan
(`B`'s dependencies are not ids of `L`, and `B` is not scheduled
before `L`).  If some dependency of `B` produced a failed result
(non-zero exit code or non-empty error) in one of the earlier layers,
then `executeConcurrent` records for `B` the synthesised result with
exit code 1 and error `skipped due to failed dependencies: <ids>`,
where `<ids>` lists exactly those of `B`'s dependencies with a failed
result, and the supervisor is never invoked for `B`. -/
theorem executeConcurrent_skip_spec (O : RunOracle)
    (SH : Nat → List TaskResult → List TaskResult)
    (pre post : List (List TaskSpec)) (L : List TaskSpec) (B : TaskSpec)
    (hB : B ∈ L)
    (hdep : ∃ d ∈ B.dependencies,
        failedIn (execLayers O SH pre 0 ⟨[], [], SMap.empty⟩).results d = true)
    (hlayer : ∀ d ∈ B.dependencies, ∀ t ∈ L, t.id ≠ d)
    (hBpre : B ∉ pre.flatten) :
    (⟨B.id, 1, "", "",
        "skipped due to failed dependencies: " ++ String.intercalate ","
          (B.dependencies.filter (fun d =>
            failedIn (execLayers O SH pre 0 ⟨[], [], SMap.empty⟩).results d))⟩ : TaskResult)
      ∈ executeConcurrent O SH (pre ++ L :: post)
    ∧ B ∉ launchedTasks O SH (pre ++ L :: post) := by
  have hconc : ∀ id,
      (execLayers O SH pre 0 ⟨[], [], SMap.empty⟩).failed.containsKey id = true
        ↔ failedIn (execLayers O SH pre 0 ⟨[], [], SMap.empty⟩).results id = true :=
    exec_concordant O SH pre 0 ⟨[], [], SMap.empty⟩ (fun _ => Iff.rfl)
  have hdep' : ∃ d ∈ B.dependencies,
      (execLayers O SH pre 0 ⟨[], [], SMap.empty⟩).failed.containsKey d = true := by
    obtain ⟨d, hdm, hdf⟩ := hdep
    exact ⟨d, hdm, (hconc d).mpr hdf⟩
  have hfilter : B.dependencies.filter (fun d =>
        failedIn (execLayers O SH pre 0 ⟨[], [], SMap.empty⟩).results d)
      = B.dependencies.filter (fun d =>
        (execLayers O SH pre 0 ⟨[], [], SMap.empty⟩).failed.containsKey d) := by
    refine List.filter_congr ?_
    intro d _
    cases h1 : (execLayers O SH pre 0 ⟨[], [], SMap.empty⟩).failed.containsKey d
    · cases h2 : failedIn (execLayers O SH pre 0 ⟨[], [], SMap.empty⟩).results d
      · rfl
      · exact absurd ((hconc d).mpr h2) (by simp [h1])
    · exact (hconc d).mp h1
  have hsplit := exec_append O SH pre (L :: post) 0 ⟨[], [], SMap.empty⟩
  constructor
  · unfold executeConcurrent
    rw [hsplit]
    simp only [execLayers]
    apply exec_results_mono
    refine List.mem_append_left _ (List.mem_append_right _ ?_)
    simp only [scanLayer]
    rw [hfilter]
    exact scan_skips_B L ⟨[], [], (execLayers O SH pre 0 ⟨[], [], SMap.empty⟩).failed⟩ B
      hdep' hlayer hB
  · unfold launchedTasks
    rw [hsplit]
    simp only [execLayers]
    obtain ⟨d, hdm, hdf⟩ := hdep'
    refine exec_launched_avoid O SH post _ _ B ⟨d, hdm, ?_⟩ ?_
    · refine reg_failed_mono _ _ d ?_
      simp only [scanLayer]
      exact scan_failed_mono L ⟨[], [], _⟩ d hdf
    · intro hmem
      rcases List.mem_append.mp hmem with h1 | h1
      · rcases exec_launched_sub O SH pre 0 ⟨[], [], SMap.empty⟩ B h1 with h2 | h2
        · cases h2
        · exact hBpre h2
      · simp only [scanLayer] at h1
        exact scan_avoids_B L ⟨[], [], _⟩ B ⟨d, hdm, hdf⟩ (by intro h0; cases h0) h1

/-- C3 (witness): a two-layer plan where the only dependency of `b`
fails in the first layer. -/
theorem executeConcurrent_skip_spec_witness :
    (⟨"b", 1, "", "",
        "skipped due to failed dependencies: " ++ String.intercalate ","
          ((["a"] : List String).filter (fun d =>
            failedIn (execLayers
              (fun t => if t.id = "a" then ⟨2, "", "", "boom"⟩ else ⟨0, "ok", "", ""⟩)
              (fun _ l => l) [[⟨"a", "ta", ".", [], "", "", false⟩]] 0
              ⟨[], [], SMap.empty⟩).results d))⟩ : TaskResult)
      ∈ executeConcurrent
          (fun t => if t.id = "a" then ⟨2, "", "", "boom"⟩ else ⟨0, "ok", "", ""⟩)
          (fun _ l => l)
          ([[⟨"a", "ta", ".", [], "", "", false⟩]]
            ++ [⟨"b", "tb", ".", ["a"], "", "", false⟩] :: []) := by
  exact (executeConcurrent_skip_spec
    (fun t => if t.id = "a" then ⟨2, "", "", "boom"⟩ else ⟨0, "ok", "", ""⟩)
    (fun _ l => l)
    [[⟨"a", "ta", ".", [], "", "", false⟩]]
    []
    [⟨"b", "tb", ".", ["a"], "", "", false⟩]
    ⟨"b", "tb", ".", ["a"], "", "", false⟩
    (by decide)
    ⟨"a", by decide, by decide⟩
    (by decide)
    (by decide)).1

/-! ### C2: the executor emits exactly one result per task -/

/-- C2.  For every layered plan (duplicate-free ids), every backend
behaviour and every within-layer arrival order, `executeConcurrent`
returns exactly as many `TaskResult`s as there are task specs in the
plan, and each input task id appears as the `TaskID` of exactly one
result. -/
theorem executeConcurrent_results_spec (O : RunOracle)
    (SH : Nat → List TaskResult → List TaskResult)
    (layers : List (List TaskSpec))
    (hSH : ∀ i l, List.Perm (SH i l) l)
    (hN : (layers.flatten.map TaskSpec.id).Nodup) :
    (executeConcurrent O SH layers).length = layers.flatten.length
    ∧ ∀ t ∈ layers.flatten,
        ((executeConcurrent O SH layers).map TaskResult.taskID).count t.id = 1 := by
  obtain ⟨h1, h2⟩ := exec_counts O SH hSH layers 0 ⟨[], [], SMap.empty⟩
  constructor
  · simpa [executeConcurrent] using h1
  · intro t ht
    have hc := h2 t.id
    have hone : (layers.flatten.map TaskSpec.id).count t.id = 1 :=
      List.count_eq_one_of_mem hN (List.mem_map_of_mem _ ht)
    unfold executeConcurrent
    rw [hc]
    simpa using hone

/-- C2 (witness): a concrete two-layer plan with two tasks. -/
theorem executeConcurrent_results_spec_witness :
    (executeConcurrent (fun _ => ⟨0, "done", "", ""⟩) (fun _ l => l)
        [[⟨"a", "t1", ".", [], "", "", false⟩], [⟨"b", "t2", ".", ["a"], "", "", false⟩]]).length
      = ([[⟨"a", "t1", ".", [], "", "", false⟩],
          [⟨"b", "t2", ".", ["a"], "", "", false⟩]] : List (List TaskSpec)).flatten.length :=
  (executeConcurrent_results_spec (fun _ => ⟨0, "done", "", ""⟩) (fun _ l => l)
    [[⟨"a", "t1", ".", [], "", "", false⟩], [⟨"b", "t2", ".", ["a"], "", "", false⟩]]
    (fun _ _ => List.Perm.refl _) (by decide)).1

/-! ### C5: `resolveTimeout` -/

/-- C5 (counterexample).  The claim states that `CODEX_TIMEOUT=10001`
yields a 10.001 s timeout.  In the code, `parsed / 1000` is integer
division, so `resolveTimeout` returns 10 whole seconds and the deadline
handed to the child is 10000 ms, not 10001 ms. -/
theorem resolveTimeout_10001_counterexample :
    resolveTimeout (some "10001") = 10 ∧ resolveTimeoutMillis (some "10001") ≠ 10001 := by
  constructor
  · rfl
  · decide

/-- C5 (amended).  For a positive integer value `v` of `CODEX_TIMEOUT`,
`resolveTimeout` returns `v` seconds when `v ≤ 10000` and `v / 1000`
(integer division, truncating) seconds when `v > 10000`; in particular
`10000` yields 10000 s and `10001` yields 10 s.  Unset, non-integer or
non-positive values fall back to 7200 s. -/
theorem resolveTimeout_spec (v : Int) (s : String) (hparse : atoi s = some v)
    (hpos : 0 < v) :
    resolveTimeout (some s) = (if 10000 < v then v / 1000 else v)
    ∧ resolveTimeout (some "10000") = 10000
    ∧ resolveTimeout (some "10001") = 10
    ∧ resolveTimeout none = 7200
    ∧ (∀ s', atoi s' = none → resolveTimeout (some s') = 7200)
    ∧ (∀ s' v', atoi s' = some v' → v' ≤ 0 → resolveTimeout (some s') = 7200) := by
  refine ⟨?_, rfl, rfl, rfl, ?_, ?_⟩
  · have hne : s ≠ "" := by
      intro h
      subst h
      simp [atoi] at hparse
    simp only [resolveTimeout, Option.getD, hne, if_neg hne, hparse]
    have : ¬ v ≤ 0 := not_le.mpr hpos
    simp [this]
  · intro s' hnone
    by_cases hne : s' = ""
    · subst hne
      rfl
    · simp [resolveTimeout, hne, hnone, defaultTimeout]
  · intro s' v' hsome hle
    by_cases hne : s' = ""
    · subst hne
      rfl
    · simp [resolveTimeout, hne, hsome, hle, defaultTimeout]

/-- C5 (witness): the amended theorem applied at `CODEX_TIMEOUT=10001`. -/
theorem resolveTimeout_spec_witness :
    resolveTimeout (some "10001") = (if 10000 < (10001 : Int) then 10001 / 1000 else 10001) := by
  exact (resolveTimeout_spec 10001 "10001" (by decide) (by decide)).1

/-! ### C6: `shouldUseStdin` -/

/-- C6.  `shouldUseStdin` returns true exactly when the input was
piped, or the text is longer than 800 bytes, or the text contains one
of newline, backslash, double quote, single quote, backtick, dollar;
a plain 800-byte text selects argument mode and an 801-byte one
selects stdin mode. -/
theorem shouldUseStdin_spec :
    (∀ (t : String) (p : Bool), shouldUseStdin t p = true ↔
      (p = true ∨ 800 < t.utf8ByteSize ∨ ∃ c ∈ t.data, c ∈ stdinSpecialChars))
    ∧ shouldUseStdin (plainText 800) false = false
    ∧ shouldUseStdin (plainText 801) false = true := by
  refine ⟨?_, by decide, by decide⟩
  intro t p
  unfold shouldUseStdin
  by_cases hp : p
  · simp [hp]
  · simp only [hp, if_false, Bool.false_eq_true, false_or]
    by_cases hlen : 800 < t.utf8ByteSize
    · simp [hlen]
    · simp only [hlen, if_false, false_or, List.any_eq_true]
      constructor
      · rintro ⟨c, hc, hmem⟩
        exact ⟨c, hc, by simpa using hmem⟩
      · rintro ⟨c, hc, hmem⟩
        exact ⟨c, hc, by simpa using hmem⟩

/-! ### C4: `Logger.log` on a full queue -/

/-- C4 (counterexample).  The claim states that with the queue full
(1000 entries) and the logger not closing, `log` returns immediately
and drops the entry.  The `select` in `Logger.log` has no `default`
clause, so with the channel full and `done` open neither case is
ready: the call does not return with the entry dropped — it blocks. -/
theorem loggerLog_full_counterexample :
    ¬ LogStep ⟨List.replicate loggerQueueCapacity ⟨"INFO", "x"⟩, false, false⟩
        ⟨"INFO", "y"⟩ .dropped := by
  intro h
  cases h with
  | closedDrop hc => simp at hc
  | closingDrop hc hcl => simp at hcl

/-- C4 (amended).  When the bounded queue (capacity 1000) is full and
the logger is neither closing nor closed, a call to `log` blocks the
producer until the writer frees a slot or close begins: blocking is the
one possible outcome of the `select`, and in particular the entry is
not dropped. -/
theorem loggerLog_full_blocks (s : LoggerState) (e : LogEntry)
    (hfull : loggerQueueCapacity ≤ s.queue.length)
    (hclosing : s.closing = false) (hclosed : s.closed = false) :
    LogStep s e .blocked ∧ ∀ o, LogStep s e o → o = .blocked := by
  constructor
  · exact LogStep.fullBlock hclosed hfull hclosing
  · intro o h
    cases h with
    | closedDrop hc => rw [hclosed] at hc; cases hc
    | send hc hlt => omega
    | closingDrop hc hcl => rw [hclosing] at hcl; cases hcl
    | fullBlock _ _ _ => rfl

/-- C4 (witness): the amended theorem at a concrete full, open state. -/
theorem loggerLog_full_blocks_witness :
    LogStep ⟨List.replicate loggerQueueCapacity ⟨"INFO", "x"⟩, false, false⟩
      ⟨"INFO", "y"⟩ .blocked := by
  exact (loggerLog_full_blocks ⟨List.replicate loggerQueueCapacity ⟨"INFO", "x"⟩, false, false⟩
    ⟨"INFO", "y"⟩ (by simp) rfl rfl).1

/-! ### C9: log-file lifecycle of `run` -/

/-- C9 (counterexample).  The claim states the log file still exists
after a normal exit.  The deferred cleanup of `run` — commented
`// Always remove log file after completion` — unconditionally calls
`RemoveLogFile` after closing the logger, so after a normal exit the
file is gone (the repository's own tests assert exactly this:
`log file still exists after run` is a test failure). -/
theorem runCleanup_removes_counterexample :
    ¬ ((runDeferredCleanup openedLoggerState).logFileExists = true) := by
  decide

/-- C9 (amended).  On every normal exit of `run` after the logger was
opened, the deferred cleanup closes the logger and then always removes
the log file, so the file does not persist.  `Logger.Close` alone
preserves the file; only the explicit `RemoveLogFile` step deletes
it. -/
theorem runCleanup_spec (fs : LogFileState) :
    (runDeferredCleanup fs).logFileExists = false
    ∧ (loggerClose fs).logFileExists = fs.logFileExists
    ∧ (removeLogFile fs).logFileExists = false := by
  exact ⟨rfl, rfl, rfl⟩

/-- **C1.**  For every batch of TaskSpec with pairwise-distinct ids (the
only batches `topologicalSort` is called on: `parseParallelConfig`
rejects duplicate ids), `topologicalSort` returns an error if and only
if some task lists a dependency id not present in the batch or the
dependency graph has a cycle; when it succeeds, the flattened layers are
a permutation of the input, every input spec appears in exactly one
layer, and each spec's layer index is strictly greater than the layer
index of every one of its dependencies. -/
theorem topologicalSort_spec (tasks : List TaskSpec)
    (hN : (tasks.map TaskSpec.id).Nodup) :
    ((topologicalSort tasks).isOk = true ↔ ¬ UnknownDep tasks ∧ ¬ HasCycle tasks)
    ∧ ∀ layers, topologicalSort tasks = Except.ok layers →
        layers.flatten.Perm tasks
        ∧ (∀ t ∈ tasks, (layers.filter (fun l => decide (t ∈ l))).length = 1)
        ∧ (∀ i j, ∀ hi : i < layers.length, ∀ hj : j < layers.length,
            ∀ t ∈ layers.get ⟨i, hi⟩, ∀ d ∈ t.dependencies,
            ∀ u ∈ layers.get ⟨j, hj⟩, u.id = d → j < i) := by
  by_cases hU : UnknownDep tasks
  · obtain ⟨e, herr⟩ := (buildGraph_error tasks).mpr hU
    have htop : topologicalSort tasks = Except.error e := by
      unfold topologicalSort
      rw [herr]
    rw [htop]
    constructor
    · constructor
      · intro h
        exact Bool.noConfusion h
      · rintro ⟨hnu, _⟩
        exact absurd hU hnu
    · intro layers hlay
      exact Except.noConfusion hlay
  · have hK : ∀ t ∈ tasks, ∀ d ∈ t.dependencies, d ∈ tasks.map TaskSpec.id := by
      intro t ht d hd
      by_contra hc
      exact hU ⟨t, ht, d, hd, hc⟩
    obtain ⟨st, hok, hind, hadjc⟩ := buildGraph_ok tasks hK
    have hInv0 := kahn_init tasks hN hK st.1 hind
    have htop : topologicalSort tasks =
        (if (kahnLoop (idToTaskMap tasks) st.2 tasks.length
              ((tasks.filter (fun t => st.1.getD t.id 0 = 0)).map TaskSpec.id)
              st.1 0 []).2.2 ≠ tasks.length
         then Except.error (cycleErrorMsg (kahnLoop (idToTaskMap tasks) st.2 tasks.length
              ((tasks.filter (fun t => st.1.getD t.id 0 = 0)).map TaskSpec.id)
              st.1 0 []).2.1)
         else Except.ok (kahnLoop (idToTaskMap tasks) st.2 tasks.length
              ((tasks.filter (fun t => st.1.getD t.id 0 = 0)).map TaskSpec.id)
              st.1 0 []).1) := by
      unfold topologicalSort
      rw [hok]
    generalize hres : kahnLoop (idToTaskMap tasks) st.2 tasks.length
        ((tasks.filter (fun t => st.1.getD t.id 0 = 0)).map TaskSpec.id)
        st.1 0 [] = res at htop
    have hFinal : KahnInv tasks [] res.2.1 res.2.2 res.1 := by
      rw [← hres]
      exact kahn_loop_post tasks hN st.2 hadjc tasks.length _ st.1 0 [] hInv0 (by omega)
    have hPnodup : (res.1.flatten.map TaskSpec.id).Nodup := by
      have h0 := hFinal.nodup
      rwa [List.append_nil] at h0
    have hPsub : ∀ x ∈ res.1.flatten.map TaskSpec.id, x ∈ tasks.map TaskSpec.id := by
      intro x hx
      exact hFinal.subids x (by rwa [List.append_nil])
    have hproc : res.2.2 = res.1.flatten.length := hFinal.procEq
    by_cases hdone : res.2.2 = tasks.length
    · have htop2 : topologicalSort tasks = Except.ok res.1 := by
        rw [htop, if_neg (not_not_intro hdone)]
      have hlen : (tasks.map TaskSpec.id).length ≤ (res.1.flatten.map TaskSpec.id).length := by
        rw [List.length_map, List.length_map]
        omega
      have hcover := nodup_subset_full _ _ hPnodup hN hPsub hlen
      have hPermIds : (res.1.flatten.map TaskSpec.id).Perm (tasks.map TaskSpec.id) := by
        refine List.perm_of_nodup_nodup_toFinset_eq hPnodup hN ?_
        ext x
        simp only [List.mem_toFinset]
        exact ⟨fun h => hPsub x h, fun h => hcover x h⟩
      have hback : ∀ l : List TaskSpec, (∀ t ∈ l, taskOf tasks t.id = t) →
          (l.map TaskSpec.id).map (taskOf tasks) = l := by
        intro l hl
        induction l with
        | nil => rfl
        | cons a as ih =>
            simp only [List.map_cons, List.cons.injEq]
            exact ⟨hl a (List.mem_cons_self a as),
                   ih (fun t ht => hl t (List.mem_cons_of_mem a ht))⟩
      have hPerm : res.1.flatten.Perm tasks := by
        have h1 := hPermIds.map (taskOf tasks)
        rwa [hback _ (fun t ht => (hFinal.emitted t ht).2),
             hback _ (fun t ht => taskOf_mem tasks hN t ht)] at h1
      have honce : ∀ t ∈ tasks, (res.1.filter (fun l => decide (t ∈ l))).length = 1 := by
        intro t ht
        have htasksN : tasks.Nodup := List.Nodup.of_map _ hN
        have hcount : res.1.flatten.count t = 1 := by
          rw [hPerm.count_eq]
          exact List.count_eq_one_of_mem htasksN ht
        refine filter_mem_layers_one res.1 t ?_
        rw [← hcount, List.count_flatten]
      have horder : ∀ i j, ∀ hi : i < res.1.length, ∀ hj : j < res.1.length,
          ∀ t ∈ res.1.get ⟨i, hi⟩, ∀ d ∈ t.dependencies,
          ∀ u ∈ res.1.get ⟨j, hj⟩, u.id = d → j < i := by
        intro i j hi hj t ht d hd u hu hud
        obtain ⟨j2, hj2, hlt, u2, hu2, hu2id⟩ := hFinal.layerOrder i hi t ht d hd
        have := mem_layer_unique res.1 hPnodup j j2 hj hj2 u hu u2 hu2 (by rw [hud, hu2id])
        omega
      have hnc : ¬ HasCycle tasks :=
        layers_no_cycle tasks hN res.1 hPnodup
          (fun t ht => (hFinal.emitted t ht).1) hcover hFinal.layerOrder
      refine ⟨?_, ?_⟩
      · rw [htop2]
        constructor
        · intro _
          exact ⟨hU, hnc⟩
        · intro _
          rfl
      · intro layers hlay
        rw [htop2] at hlay
        injection hlay with hlay
        rw [← hlay]
        exact ⟨hPerm, honce, horder⟩
    · have htop2 : topologicalSort tasks = Except.error (cycleErrorMsg res.2.1) := by
        rw [htop, if_pos hdone]
      have hcyc : HasCycle tasks :=
        cycle_of_incomplete tasks hN hK res.2.1 res.2.2 res.1 hFinal hdone
      refine ⟨?_, ?_⟩
      · rw [htop2]
        constructor
        · intro h
          exact Bool.noConfusion h
        · rintro ⟨_, hnc⟩
          exact absurd hcyc hnc
      · intro layers hlay
        rw [htop2] at hlay
        exact Except.noConfusion hlay

/-- C1 witness: the two-task batch `a ← b` has pairwise-distinct ids
and sorts into the layers `[[a], [b]]`, whose flattening is a
permutation of the input batch. -/
theorem topologicalSort_spec_witness :
    (([(⟨"a", "x", "", [], "", "", false⟩ : TaskSpec),
       ⟨"b", "y", "", ["a"], "", "", false⟩].map TaskSpec.id).Nodup)
    ∧ ([[(⟨"a", "x", "", [], "", "", false⟩ : TaskSpec)],
        [⟨"b", "y", "", ["a"], "", "", false⟩]].flatten.Perm
       [⟨"a", "x", "", [], "", "", false⟩, ⟨"b", "y", "", ["a"], "", "", false⟩]) := by
  constructor
  · decide
  · exact ((topologicalSort_spec
      [⟨"a", "x", "", [], "", "", false⟩, ⟨"b", "y", "", ["a"], "", "", false⟩]
      (by decide)).2
      [[⟨"a", "x", "", [], "", "", false⟩], [⟨"b", "y", "", ["a"], "", "", false⟩]]
      (by rfl)).1

end CodexWrapper
